import Mathlib

set_option maxHeartbeats 1000000

namespace StudyBuddy

/-!
Verification development for the study-buddy streaming chat client.

The definitions below are shallow embeddings of the TypeScript source:
* `readSSEStream` and its helpers embed the SSE reader in
  `src/components/Chat.tsx` (function `readSSEStream`).
Byte streams are modelled at character level: the source feeds the
`TextDecoder` in stream mode, which never splits a multi-byte character
across reads, so each read boundary is a character boundary.
-/

/-- One decoded server-sent event: event name plus joined data payload. -/
structure SSEEvent where
  event : String
  data : String
deriving DecidableEq, Repr

/-- The callback-visible SSE parser state: pending data lines, the pending
event name, and the list of events emitted so far (the `onEvent` calls). -/
structure SSECore where
  dataLines : List String
  currentEvent : String
  out : List SSEEvent
deriving DecidableEq, Repr

/-- Full SSE reader state: the undelivered text buffer plus the core. -/
structure SSEState where
  buffer : List Char
  core : SSECore
deriving DecidableEq, Repr

/-- `flushEvent` from `readSSEStream`: on an empty data-line list only the
event name resets; otherwise emit `\x7bevent, data\x7d` (empty names default to
"message", data lines joined with newlines) and reset. -/
def flushEvent (c : SSECore) : SSECore :=
  if c.dataLines = [] then { c with currentEvent := "message" }
  else
    { dataLines := []
      currentEvent := "message"
      out := c.out ++
        [⟨if c.currentEvent = "" then "message" else c.currentEvent,
          String.intercalate "\n" c.dataLines⟩] }

/-- The `line.endsWith('\r')` strip at the top of `processLine`. -/
def stripCR (line : List Char) : List Char :=
  if line.getLast? = some '\r' then line.dropLast else line

/-- `processLine` from `readSSEStream`: empty line flushes, `event:` sets the
pending event name, `data:` appends a data line (one leading space stripped),
anything else is ignored. -/
def processLine (c : SSECore) (line0 : List Char) : SSECore :=
  let line := stripCR line0
  if line = [] then flushEvent c
  else if "event:".data.isPrefixOf line then
    let v0 := line.drop 6
    let v := if v0.head? = some ' ' then v0.tail else v0
    { c with currentEvent := if v = [] then "message" else String.mk v }
  else if "data:".data.isPrefixOf line then
    let v0 := line.drop 5
    let v := if v0.head? = some ' ' then v0.tail else v0
    { c with dataLines := c.dataLines ++ [String.mk v] }
  else c

/-- `buffer.indexOf('\n')` plus the two slices: split a char list at the first
newline, returning the line before it and the rest after it. -/
def breakNl : List Char → Option (List Char × List Char)
  | [] => none
  | c :: cs =>
    if c = '\n' then some ([], cs)
    else
      match breakNl cs with
      | none => none
      | some (l, r) => some (c :: l, r)

theorem breakNl_rest_length :
    ∀ {b line rest : List Char}, breakNl b = some (line, rest) →
      rest.length < b.length := by
  intro b
  induction b with
  | nil => intro line rest h; simp [breakNl] at h
  | cons c cs ih =>
    intro line rest h
    by_cases hc : c = '\n'
    · simp [breakNl, hc] at h
      obtain ⟨h1, h2⟩ := h
      subst h2
      simp
    · cases hb : breakNl cs with
      | none => simp [breakNl, hc, hb] at h
      | some p =>
        obtain ⟨l, r⟩ := p
        simp [breakNl, hc, hb] at h
        obtain ⟨h1, h2⟩ := h
        subst h2
        have := ih hb
        simp
        omega

/-- The inner `while ((idx = buffer.indexOf('\n')) !== -1)` loop of
`readSSEStream`: process every complete line in the buffer. -/
def consume (st : SSEState) : SSEState :=
  match h : breakNl st.buffer with
  | none => st
  | some (line, rest) => consume ⟨rest, processLine st.core line⟩
termination_by st.buffer.length
decreasing_by exact breakNl_rest_length h

theorem consume_none {s : SSEState} (h : breakNl s.buffer = none) :
    consume s = s := by
  rw [consume]
  split
  · rfl
  · rename_i line rest heq
    rw [h] at heq
    cases heq

theorem consume_some {s : SSEState} {line rest : List Char}
    (h : breakNl s.buffer = some (line, rest)) :
    consume s = consume ⟨rest, processLine s.core line⟩ := by
  rw [consume]
  split
  · rename_i heq
    rw [h] at heq
    cases heq
  · rename_i l r heq
    rw [h] at heq
    simp only [Option.some.injEq, Prod.mk.injEq] at heq
    obtain ⟨h1, h2⟩ := heq
    rw [h1, h2]

/-- One `reader.read()` delivery: `buffer += decoder.decode(value, stream)`
followed by the line-splitting loop. -/
def feedChunk (st : SSEState) (chunk : String) : SSEState :=
  consume ⟨st.buffer ++ chunk.data, st.core⟩

/-- End of stream: process a final non-empty trailing line, then flush any
pending event even without a trailing blank line. -/
def finishStream (st : SSEState) : SSECore :=
  flushEvent (if st.buffer = [] then st.core else processLine st.core st.buffer)

/-- Initial reader state. -/
def sseInit : SSEState := ⟨[], ⟨[], "message", []⟩⟩

/-- `readSSEStream`, as a function from the sequence of delivered reads to the
ordered list of emitted `\x7bevent, data\x7d` records. -/
def readSSEStream (chunks : List String) : List SSEEvent :=
  (finishStream (chunks.foldl feedChunk sseInit)).out

theorem breakNl_append_some {a line rest : List Char}
    (h : breakNl a = some (line, rest)) (b : List Char) :
    breakNl (a ++ b) = some (line, rest ++ b) := by
  induction a generalizing line rest with
  | nil => simp [breakNl] at h
  | cons c cs ih =>
    by_cases hc : c = '\n'
    · simp [breakNl, hc] at h ⊢
      obtain ⟨h1, h2⟩ := h
      subst h1
      subst h2
      exact ⟨rfl, rfl⟩
    · cases hb : breakNl cs with
      | none => simp [breakNl, hc, hb] at h
      | some p =>
        obtain ⟨l, r⟩ := p
        simp [breakNl, hc, hb] at h
        obtain ⟨h1, h2⟩ := h
        simp [breakNl, hc, ih hb]
        exact ⟨h1, by rw [h2]⟩

theorem consume_append_aux :
    ∀ (n : Nat) (b : List Char), b.length ≤ n → ∀ (core : SSECore) (extra : List Char),
      consume ⟨b ++ extra, core⟩ =
        consume ⟨(consume ⟨b, core⟩).buffer ++ extra, (consume ⟨b, core⟩).core⟩ := by
  intro n
  induction n with
  | zero =>
    intro b hb core extra
    have hbe : b = [] := List.length_eq_zero.mp (Nat.le_zero.mp hb)
    subst hbe
    rw [consume_none (s := ⟨[], core⟩) rfl]
  | succ n ih =>
    intro b hb core extra
    cases h : breakNl b with
    | none =>
      rw [consume_none (s := ⟨b, core⟩) h]
    | some p =>
      obtain ⟨line, rest⟩ := p
      rw [consume_some (s := ⟨b, core⟩) h,
        consume_some (s := ⟨b ++ extra, core⟩) (breakNl_append_some h extra)]
      exact ih rest (by have := breakNl_rest_length h; omega) (processLine core line) extra

theorem consume_append (b extra : List Char) (core : SSECore) :
    consume ⟨b ++ extra, core⟩ =
      consume ⟨(consume ⟨b, core⟩).buffer ++ extra, (consume ⟨b, core⟩).core⟩ :=
  consume_append_aux b.length b (le_refl _) core extra

theorem foldl_feedChunk (chunks : List String) :
    ∀ (b : List Char) (core : SSECore),
      chunks.foldl feedChunk (consume ⟨b, core⟩) =
        consume ⟨b ++ (chunks.map String.data).flatten, core⟩ := by
  induction chunks with
  | nil => intro b core; simp
  | cons c cs ih =>
    intro b core
    rw [List.foldl_cons]
    have h1 : feedChunk (consume ⟨b, core⟩) c = consume ⟨b ++ c.data, core⟩ :=
      (consume_append b c.data core).symm
    rw [h1, ih (b ++ c.data) core]
    simp

theorem string_foldl_append_data (l : List String) :
    ∀ (a : String), (l.foldl (· ++ ·) a).data = a.data ++ (l.map String.data).flatten := by
  induction l with
  | nil => intro a; simp
  | cons s rest ih =>
    intro a
    rw [List.foldl_cons, ih (a ++ s)]
    simp

theorem string_join_data (l : List String) :
    (String.join l).data = (l.map String.data).flatten := by
  have := string_foldl_append_data l ""
  simpa [String.join] using this

/-- C1: for every input text and every way of splitting it into successive
reads (splits at arbitrary points, including mid-line), `readSSEStream`
delivers the identical ordered sequence of `\x7bevent, data\x7d` records as when
the full text (the concatenation of the reads) arrives in a single read. -/
theorem readSSEStream_split_invariant (chunks : List String) :
    readSSEStream chunks = readSSEStream [String.join chunks] := by
  unfold readSSEStream sseInit
  rw [show (⟨[], ⟨[], "message", []⟩⟩ : SSEState) =
      consume ⟨[], ⟨[], "message", []⟩⟩ from
      (consume_none (s := ⟨[], ⟨[], "message", []⟩⟩) rfl).symm]
  rw [foldl_feedChunk, foldl_feedChunk]
  simp [string_join_data]

/-!
JSON values and a model of the ECMAScript `JSON.parse` builtin, used by
`openaiConnector.extract`, the event dispatcher in `handleSend`, and
`searchRag`.  Numbers keep their source lexeme (their numeric value is never
consumed by this client).  `none` models a thrown `SyntaxError`.
-/

/-- A parsed JSON value.  Object fields keep their textual order; duplicate
keys are resolved by `lookupField` taking the last occurrence, as in JS. -/
inductive Json where
  | null
  | bool (b : Bool)
  | num (raw : String)
  | str (s : String)
  | arr (elems : List Json)
  | obj (fields : List (String × Json))
deriving Repr

/-- The four JSON whitespace characters. -/
def isJsonWs (c : Char) : Bool :=
  c = ' ' ∨ c = '\t' ∨ c = '\n' ∨ c = '\r'

def skipWs : List Char → List Char
  | [] => []
  | c :: cs => if isJsonWs c then skipWs cs else c :: cs

def isDigitChar (c : Char) : Bool := '0' ≤ c ∧ c ≤ '9'

/-- Longest leading digit run. -/
def takeDigits : List Char → List Char × List Char
  | [] => ([], [])
  | c :: cs =>
    if isDigitChar c then
      let (ds, r) := takeDigits cs
      (c :: ds, r)
    else ([], c :: cs)

def hexVal (c : Char) : Option Nat :=
  if '0' ≤ c ∧ c ≤ '9' then some (c.toNat - '0'.toNat)
  else if 'a' ≤ c ∧ c ≤ 'f' then some (c.toNat - 'a'.toNat + 10)
  else if 'A' ≤ c ∧ c ≤ 'F' then some (c.toNat - 'A'.toNat + 10)
  else none

/-- Body of a JSON string literal after the opening quote: returns the decoded
characters and the input remaining after the closing quote. -/
def parseStringBody : Nat → List Char → Option (List Char × List Char)
  | 0, _ => none
  | _ + 1, [] => none
  | fuel + 1, c :: cs =>
    if c = '"' then some ([], cs)
    else if c = '\\' then
      match cs with
      | [] => none
      | e :: cs2 =>
        let dec :=
          if e = '"' then some ('"', cs2)
          else if e = '\\' then some ('\\', cs2)
          else if e = '/' then some ('/', cs2)
          else if e = 'b' then some ('\x08', cs2)
          else if e = 'f' then some ('\x0c', cs2)
          else if e = 'n' then some ('\n', cs2)
          else if e = 'r' then some ('\r', cs2)
          else if e = 't' then some ('\t', cs2)
          else if e = 'u' then
            match cs2 with
            | h1 :: h2 :: h3 :: h4 :: cs3 =>
              match hexVal h1, hexVal h2, hexVal h3, hexVal h4 with
              | some a, some b, some c2, some d =>
                some (Char.ofNat (((a * 16 + b) * 16 + c2) * 16 + d), cs3)
              | _, _, _, _ => none
            | _ => none
          else none
        match dec with
        | none => none
        | some (ch, rest) =>
          match parseStringBody fuel rest with
          | none => none
          | some (s, r) => some (ch :: s, r)
    else
      match parseStringBody fuel cs with
      | none => none
      | some (s, r) => some (c :: s, r)

/-- Optional fraction part of a JSON number. -/
def parseFrac : List Char → Option (List Char × List Char)
  | '.' :: r =>
    let (fs, r2) := takeDigits r
    if fs = [] then none else some ('.' :: fs, r2)
  | l => some ([], l)

/-- Optional exponent part of a JSON number. -/
def parseExp : List Char → Option (List Char × List Char)
  | c :: r =>
    if c = 'e' ∨ c = 'E' then
      let (sgn, r1) :=
        match r with
        | s :: r2 => if s = '+' ∨ s = '-' then ([s], r2) else (([] : List Char), s :: r2)
        | [] => ([], [])
      let (ds, r2) := takeDigits r1
      if ds = [] then none else some (c :: (sgn ++ ds), r2)
    else some ([], c :: r)
  | [] => some ([], [])

/-- JSON number lexeme (kept raw). -/
def parseNumber (l : List Char) : Option (List Char × List Char) :=
  let (sgn, l1) :=
    match l with
    | '-' :: r => ((['-'] : List Char), r)
    | _ => ([], l)
  let (ds, l2) := takeDigits l1
  if ds = [] then none
  else
    match parseFrac l2 with
    | none => none
    | some (f, l3) =>
      match parseExp l3 with
      | none => none
      | some (e, l4) => some (sgn ++ ds ++ f ++ e, l4)

def lbraceChar : Char := Char.ofNat 123
def rbraceChar : Char := Char.ofNat 125

mutual

/-- One JSON value (fuelled recursive-descent; fuel is sized by the caller so
that it never runs out on an input the builtin would accept). -/
def parseValue : Nat → List Char → Option (Json × List Char)
  | 0, _ => none
  | fuel + 1, l =>
    match skipWs l with
    | [] => none
    | c :: cs =>
      if c = 'n' then
        match cs with
        | 'u' :: 'l' :: 'l' :: r => some (.null, r)
        | _ => none
      else if c = 't' then
        match cs with
        | 'r' :: 'u' :: 'e' :: r => some (.bool true, r)
        | _ => none
      else if c = 'f' then
        match cs with
        | 'a' :: 'l' :: 's' :: 'e' :: r => some (.bool false, r)
        | _ => none
      else if c = '"' then
        match parseStringBody (cs.length + 1) cs with
        | none => none
        | some (s, r) => some (.str (String.mk s), r)
      else if c = '[' then
        match skipWs cs with
        | ']' :: r => some (.arr [], r)
        | _ =>
          match parseElems fuel cs with
          | none => none
          | some (vs, r) => some (.arr vs, r)
      else if c = lbraceChar then
        match skipWs cs with
        | c2 :: r =>
          if c2 = rbraceChar then some (.obj [], r)
          else
            match parseFields fuel cs with
            | none => none
            | some (fs, r2) => some (.obj fs, r2)
        | [] => none
      else
        match parseNumber (c :: cs) with
        | none => none
        | some (raw, r) => some (.num (String.mk raw), r)

/-- Comma-separated array elements up to the closing bracket. -/
def parseElems : Nat → List Char → Option (List Json × List Char)
  | 0, _ => none
  | fuel + 1, l =>
    match parseValue fuel l with
    | none => none
    | some (v, r) =>
      match skipWs r with
      | ',' :: r2 =>
        match parseElems fuel r2 with
        | none => none
        | some (vs, r3) => some (v :: vs, r3)
      | ']' :: r2 => some ([v], r2)
      | _ => none

/-- Comma-separated object members up to the closing brace. -/
def parseFields : Nat → List Char → Option (List (String × Json) × List Char)
  | 0, _ => none
  | fuel + 1, l =>
    match skipWs l with
    | '"' :: r =>
      match parseStringBody (r.length + 1) r with
      | none => none
      | some (k, r2) =>
        match skipWs r2 with
        | ':' :: r3 =>
          match parseValue fuel r3 with
          | none => none
          | some (v, r4) =>
            match skipWs r4 with
            | ',' :: r5 =>
              match parseFields fuel r5 with
              | none => none
              | some (fs, r6) => some ((String.mk k, v) :: fs, r6)
            | c :: r5 =>
              if c = rbraceChar then some ([(String.mk k, v)], r5) else none
            | [] => none
        | _ => none
    | _ => none

end

/-- Model of the `JSON.parse` builtin: `none` stands for a thrown
`SyntaxError` (which every caller in this repository catches). -/
def jsonParse (s : String) : Option Json :=
  match parseValue (2 * s.data.length + 2) s.data with
  | none => none
  | some (v, r) => if skipWs r = [] then some v else none

/-- Last-occurrence field lookup, matching how JS object literals resolve
duplicate keys. -/
def lookupField : List (String × Json) → String → Option Json
  | [], _ => none
  | (k, v) :: rest, key =>
    match lookupField rest key with
    | some v2 => some v2
    | none => if k = key then some v else none

/-- The optional-chaining member access `x?.key`: `undefined` (here `none`)
unless `x` is an object with that key. -/
def jget (j : Json) (key : String) : Option Json :=
  match j with
  | .obj fields => lookupField fields key
  | _ => none

/-- Result of `openaiConnector.extract`: a terminal sentinel or a non-empty
text fragment. -/
inductive ExtractResult where
  | done
  | text (s : String)
deriving DecidableEq, Repr

/-- The `for (const choice of choices)` loop of `openaiConnector.extract`:
concatenate every `choice?.delta?.content` that is a string. -/
def deltaContentConcat (choices : List Json) : String :=
  choices.foldl
    (fun acc choice =>
      match jget choice "delta" with
      | some d =>
        match jget d "content" with
        | some (.str part) => acc ++ part
        | _ => acc
      | none => acc)
    ""

/-- `openaiConnector.extract` from `src/components/Chat.tsx`: the literal
sentinel gives `done`; otherwise the payload must parse as JSON with a
`choices` array, whose string delta contents are concatenated; an empty
concatenation, a parse failure, or a shape mismatch gives `none`. -/
def extract (data : String) : Option ExtractResult :=
  if data = "[DONE]" then some .done
  else
    match jsonParse data with
    | none => none
    | some obj =>
      match jget obj "choices" with
      | some (.arr choices) =>
        let text := deltaContentConcat choices
        if text = "" then none else some (.text text)
      | _ => none

/-- C5: `openaiConnector.extract` returns the terminal signal exactly for the
literal sentinel payload "[DONE]"; for any payload that fails JSON parsing, or
parses to JSON without a `choices` array, it returns nothing without being
turned into model text; and when the concatenated string-typed delta contents
of all choices are empty it also returns nothing. -/
theorem extract_spec :
    (∀ data : String, extract data = some .done ↔ data = "[DONE]")
    ∧ (∀ data : String, data ≠ "[DONE]" → jsonParse data = none →
        extract data = none)
    ∧ (∀ (data : String) (j : Json), data ≠ "[DONE]" → jsonParse data = some j →
        (∀ l : List Json, jget j "choices" ≠ some (.arr l)) →
        extract data = none)
    ∧ (∀ (data : String) (j : Json) (l : List Json), data ≠ "[DONE]" →
        jsonParse data = some j → jget j "choices" = some (.arr l) →
        deltaContentConcat l = "" → extract data = none) := by
  refine ⟨?_, ?_, ?_, ?_⟩
  · intro data
    constructor
    · intro h
      by_contra hne
      rw [extract, if_neg hne] at h
      cases hp : jsonParse data with
      | none => rw [hp] at h; cases h
      | some j =>
        simp only [hp] at h
        cases hc : jget j "choices" with
        | none => simp [hc] at h
        | some v =>
          simp only [hc] at h
          cases v with
          | arr l =>
            by_cases ht : deltaContentConcat l = ""
            · simp [ht] at h
            · simp [ht] at h
          | null => simp at h
          | bool b => simp at h
          | num r => simp at h
          | str s => simp at h
          | obj f => simp at h
    · intro h
      rw [h, extract, if_pos rfl]
  · intro data hne hp
    rw [extract, if_neg hne, hp]
  · intro data j hne hp hch
    rw [extract, if_neg hne]
    cases hc : jget j "choices" with
    | none => simp [hp, hc]
    | some v =>
      cases v with
      | arr l => exact absurd hc (hch l)
      | null => simp [hp, hc]
      | bool b => simp [hp, hc]
      | num r => simp [hp, hc]
      | str s => simp [hp, hc]
      | obj f => simp [hp, hc]
  · intro data j l hne hp hch ht
    rw [extract, if_neg hne]
    simp only [hp, hch]
    simp [ht]

/-- Concrete instantiation of `extract_spec`: the sentinel, an unparseable
payload, a parsed payload with no `choices` array, and a role-only delta. -/
theorem extract_spec_witness :
    extract "[DONE]" = some .done
    ∧ extract "nonsense" = none
    ∧ extract "\x7b\"foo\":1\x7d" = none
    ∧ extract "\x7b\"choices\":[\x7b\"delta\":\x7b\"role\":\"assistant\"\x7d\x7d]\x7d" = none := by
  refine ⟨(extract_spec.1 "[DONE]").mpr rfl, ?_, ?_, ?_⟩
  · exact extract_spec.2.1 "nonsense" (by decide) rfl
  · refine extract_spec.2.2.1 "\x7b\"foo\":1\x7d" (.obj [("foo", .num "1")])
      (by decide) rfl ?_
    intro l hl
    rw [show jget (.obj [("foo", .num "1")]) "choices" = none from rfl] at hl
    cases hl
  · exact extract_spec.2.2.2
      "\x7b\"choices\":[\x7b\"delta\":\x7b\"role\":\"assistant\"\x7d\x7d]\x7d"
      (.obj [("choices", .arr [.obj [("delta", .obj [("role", .str "assistant")])]])])
      (.obj [("delta", .obj [("role", .str "assistant")])] :: [])
      (by decide) rfl rfl rfl

/-!
The `Chat` component's streaming state: the ambient refs
(`hasStartedAssistantRef`, `pendingAssistantIdRef`, `chunkQueueRef`,
`rafIdRef`, `pendingChunksRef`) and the React state (`messages`, `sending`,
`error`).  The single-threaded event loop is modelled by explicit step lists:
each step is one synchronous callback run to completion.
-/

/-- `Role` from `src/types/chat.ts`. -/
inductive Role where
  | user
  | assistant
deriving DecidableEq, Repr

/-- `ChatMessage` from `src/types/chat.ts`.  `chunks` keeps the parsed JSON
array values, matching the unvalidated `json.chunks as string[]` cast in the
dispatcher. -/
structure ChatMessage where
  id : String
  role : Role
  content : String
  chunks : Option (List Json) := none
deriving Repr

/-- A value passed to `setError`: the string literals used by the component,
or the raw truthy non-string payload of an `error` event (the source stores
`err?.error` untyped). -/
inductive ErrorVal where
  | text (s : String)
  | raw (j : Json)
deriving Repr

/-- The mutable component state of `Chat` (refs plus React state). -/
structure ChatState where
  messages : List ChatMessage
  hasStartedAssistant : Bool
  pendingAssistantId : Option String
  chunkQueue : List String
  rafScheduled : Bool
  pendingChunks : Option (List Json)
  sending : Bool
  error : Option ErrorVal
deriving Repr

/-- `appendAssistantToken` from `Chat.tsx`: the first non-empty fragment
creates the assistant message (carrying any chunks that arrived early);
later fragments are queued and schedule at most one animation frame.
`aid` stands for the `'assistant-' + Date.now()` identifier. -/
def appendAssistantToken (aid : String) (st : ChatState) (chunk : String) : ChatState :=
  if chunk = "" then st
  else if st.hasStartedAssistant = false then
    { st with
      pendingAssistantId := some aid
      hasStartedAssistant := true
      chunkQueue := []
      messages := st.messages ++
        [{ id := aid, role := .assistant, content := chunk, chunks := st.pendingChunks }]
      pendingChunks := none }
  else if st.rafScheduled then
    { st with chunkQueue := st.chunkQueue ++ [chunk] }
  else
    { st with chunkQueue := st.chunkQueue ++ [chunk], rafScheduled := true }

/-- The scheduled `requestAnimationFrame` callback firing: it clears the
handle, then appends all queued fragments to the pending assistant message in
one mutation (a no-op if nothing is scheduled, pending, or queued). -/
def rafFire (st : ChatState) : ChatState :=
  if st.rafScheduled = false then st
  else
    match st.pendingAssistantId with
    | none => { st with rafScheduled := false }
    | some assistantId =>
      if st.chunkQueue = [] then { st with rafScheduled := false }
      else
        { st with
          rafScheduled := false
          chunkQueue := []
          messages := st.messages.map (fun (m : ChatMessage) =>
            if m.id = assistantId then
              { m with content := m.content ++ String.join st.chunkQueue }
            else m) }

/-- `flushAndFinalizeAssistant` from `Chat.tsx`: cancel the pending frame,
synchronously flush queued fragments into the pending assistant message, then
clear the streaming refs and the loading flag. -/
def flushAndFinalizeAssistant (st : ChatState) : ChatState :=
  match st.pendingAssistantId with
  | some assistantId =>
    if st.chunkQueue = [] then
      { st with
        rafScheduled := false
        hasStartedAssistant := false
        pendingAssistantId := none
        sending := false }
    else
      { st with
        rafScheduled := false
        chunkQueue := []
        messages := st.messages.map (fun (m : ChatMessage) =>
          if m.id = assistantId then
            { m with content := m.content ++ String.join st.chunkQueue }
          else m)
        hasStartedAssistant := false
        pendingAssistantId := none
        sending := false }
  | none =>
    { st with
      rafScheduled := false
      hasStartedAssistant := false
      pendingAssistantId := none
      sending := false }

/-- One scheduler step while a stream is being consumed: either the stream
callback delivers one extracted text fragment, or the scheduled animation
frame fires. -/
inductive StreamStep where
  | token (s : String)
  | raf
deriving DecidableEq, Repr

/-- Run a schedule of stream steps (the cooperative event loop). -/
def runSteps (aid : String) (st : ChatState) (steps : List StreamStep) : ChatState :=
  steps.foldl
    (fun st step =>
      match step with
      | .token s => appendAssistantToken aid st s
      | .raf => rafFire st)
    st

/-- The text fragments a schedule delivers, in emission order. -/
def stepTokens (steps : List StreamStep) : List String :=
  steps.filterMap (fun s =>
    match s with
    | .token t => some t
    | .raf => none)

/-- The component state right after `handleSend` has reset the streaming refs
and (in the caller) appended the user message: `pc` is the value of
`pendingChunksRef` once a `retrieved_chunks` event has been dispatched (reset
to `none` by `handleSend` itself). -/
def streamInit (msgs : List ChatMessage) (pc : Option (List Json)) : ChatState :=
  { messages := msgs
    hasStartedAssistant := false
    pendingAssistantId := none
    chunkQueue := []
    rafScheduled := false
    pendingChunks := pc
    sending := true
    error := none }

theorem string_data_append (a b : String) : (a ++ b).data = a.data ++ b.data := rfl

theorem string_join_append (a b : List String) :
    String.join (a ++ b) = String.join a ++ String.join b := by
  apply String.ext
  simp [String.data_join, string_data_append]

theorem string_join_singleton (t : String) : String.join [t] = t := by
  apply String.ext
  simp [String.data_join]

theorem string_append_right_ne {a t : String} (ht : t ≠ "") : a ++ t ≠ "" := by
  intro h
  apply ht
  have hd := congrArg String.data h
  rw [string_data_append] at hd
  have h2 : t.data = [] := (List.append_eq_nil.mp hd).2
  exact String.ext h2

theorem map_update_fresh (msgs : List ChatMessage) (aid : String)
    (hfresh : ∀ m ∈ msgs, m.id ≠ aid) (f : ChatMessage → ChatMessage) :
    msgs.map (fun m => if m.id = aid then f m else m) = msgs := by
  induction msgs with
  | nil => rfl
  | cons m rest ih =>
    rw [List.map_cons, if_neg (hfresh m (by simp)),
      ih (fun x hx => hfresh x (by simp [hx]))]

theorem stepTokens_append (a b : List StreamStep) :
    stepTokens (a ++ b) = stepTokens a ++ stepTokens b := by
  simp [stepTokens]

theorem runSteps_append (aid : String) (st : ChatState) (a b : List StreamStep) :
    runSteps aid st (a ++ b) = runSteps aid (runSteps aid st a) b := by
  simp [runSteps]

theorem runSteps_raf (aid : String) (st : ChatState) :
    runSteps aid st [StreamStep.raf] = rafFire st := rfl

theorem runSteps_token (aid : String) (st : ChatState) (t : String) :
    runSteps aid st [StreamStep.token t] = appendAssistantToken aid st t := rfl

/-- Aggregator invariant: along any schedule, either no non-empty fragment was
delivered and the state is untouched, or the single created assistant message
plus the still-queued fragments carry exactly the emitted text, in order. -/
theorem runSteps_invariant (aid : String) (msgs : List ChatMessage)
    (pc : Option (List Json)) (hfresh : ∀ m ∈ msgs, m.id ≠ aid) :
    ∀ steps : List StreamStep,
      (String.join (stepTokens steps) = "" →
        runSteps aid (streamInit msgs pc) steps = streamInit msgs pc)
      ∧ (String.join (stepTokens steps) ≠ "" →
        ∃ c : String,
          (runSteps aid (streamInit msgs pc) steps).messages
              = msgs ++ [⟨aid, .assistant, c, pc⟩]
          ∧ c ++ String.join (runSteps aid (streamInit msgs pc) steps).chunkQueue
              = String.join (stepTokens steps)
          ∧ (runSteps aid (streamInit msgs pc) steps).hasStartedAssistant = true
          ∧ (runSteps aid (streamInit msgs pc) steps).pendingAssistantId = some aid
          ∧ (runSteps aid (streamInit msgs pc) steps).pendingChunks = none
          ∧ (runSteps aid (streamInit msgs pc) steps).sending = true
          ∧ (runSteps aid (streamInit msgs pc) steps).error = none) := by
  intro steps
  induction steps using List.reverseRecOn with
  | nil =>
    constructor
    · intro _
      rfl
    · intro h
      exact absurd rfl h
  | append_singleton l a ih =>
    have hrun := runSteps_append aid (streamInit msgs pc) l [a]
    have htoks : String.join (stepTokens (l ++ [a]))
        = String.join (stepTokens l) ++ String.join (stepTokens [a]) := by
      rw [stepTokens_append, string_join_append]
    cases a with
    | raf =>
      have htr : String.join (stepTokens (l ++ [StreamStep.raf]))
          = String.join (stepTokens l) := by
        rw [htoks]
        simp [stepTokens, String.join]
      constructor
      · intro h
        rw [htr] at h
        rw [hrun, ih.1 h]
        rfl
      · intro h
        rw [htr] at h
        obtain ⟨c, hm, hq, hstart, hpend, hpc, hsend, herr⟩ := ih.2 h
        rw [hrun, runSteps_raf]
        set S := runSteps aid (streamInit msgs pc) l with hS
        by_cases hraf : S.rafScheduled = false
        · rw [show rafFire S = S from by rw [rafFire, if_pos hraf]]
          exact ⟨c, hm, by rw [hq, htr], hstart, hpend, hpc, hsend, herr⟩
        · have hr2 : rafFire S =
              (if S.chunkQueue = [] then { S with rafScheduled := false }
               else
                 { S with
                   rafScheduled := false
                   chunkQueue := []
                   messages := S.messages.map (fun m =>
                     if m.id = aid then
                       { m with content := m.content ++ String.join S.chunkQueue }
                     else m) }) := by
            rw [rafFire, if_neg hraf]
            simp only [hpend]
          by_cases hq0 : S.chunkQueue = []
          · rw [hr2, if_pos hq0]
            exact ⟨c, hm, by rw [hq, htr], hstart, hpend, hpc, hsend, herr⟩
          · rw [hr2, if_neg hq0]
            refine ⟨c ++ String.join S.chunkQueue, ?_, ?_, hstart, hpend, hpc, hsend, herr⟩
            · show (S.messages.map _) = _
              rw [hm, List.map_append, map_update_fresh msgs aid hfresh]
              simp
            · show (c ++ String.join S.chunkQueue) ++ String.join [] = _
              rw [htr, ← hq]
              simp [String.join]
    | token t =>
      have htt : String.join (stepTokens (l ++ [StreamStep.token t]))
          = String.join (stepTokens l) ++ t := by
        rw [htoks]
        simp only [stepTokens, List.filterMap_cons, List.filterMap_nil]
        rw [string_join_singleton]
      by_cases ht : t = ""
      · subst ht
        have hte : String.join (stepTokens (l ++ [StreamStep.token ""]))
            = String.join (stepTokens l) := by
          rw [htt, String.append_empty]
        have happ : runSteps aid (streamInit msgs pc) (l ++ [StreamStep.token ""])
            = runSteps aid (streamInit msgs pc) l := by
          rw [hrun, runSteps_token, appendAssistantToken, if_pos rfl]
        constructor
        · intro h
          rw [hte] at h
          rw [happ, ih.1 h]
        · intro h
          rw [hte] at h
          obtain ⟨c, hm, hq, hrest⟩ := ih.2 h
          rw [happ]
          exact ⟨c, hm, by rw [hq, hte], hrest⟩
      · constructor
        · intro h
          rw [htt] at h
          exact absurd h (string_append_right_ne ht)
        · intro _
          by_cases hprev : String.join (stepTokens l) = ""
          · have hS0 : runSteps aid (streamInit msgs pc) l = streamInit msgs pc := ih.1 hprev
            rw [hrun, hS0, runSteps_token]
            have : appendAssistantToken aid (streamInit msgs pc) t =
                { streamInit msgs pc with
                  pendingAssistantId := some aid
                  hasStartedAssistant := true
                  chunkQueue := []
                  messages := msgs ++ [⟨aid, .assistant, t, pc⟩]
                  pendingChunks := none } := by
              rw [appendAssistantToken, if_neg ht]
              rfl
            rw [this]
            refine ⟨t, rfl, ?_, rfl, rfl, rfl, rfl, rfl⟩
            rw [htt, hprev, String.empty_append]
            simp [String.join]
          · obtain ⟨c, hm, hq, hstart, hpend, hpc, hsend, herr⟩ := ih.2 hprev
            rw [hrun, runSteps_token]
            set S := runSteps aid (streamInit msgs pc) l with hS
            have happ : appendAssistantToken aid S t =
                (if S.rafScheduled
                 then { S with chunkQueue := S.chunkQueue ++ [t] }
                 else { S with chunkQueue := S.chunkQueue ++ [t], rafScheduled := true }) := by
              rw [appendAssistantToken, if_neg ht, hstart]
              simp
            rw [happ]
            refine ⟨c, ?_⟩
            by_cases hr : S.rafScheduled
            · rw [if_pos hr]
              refine ⟨hm, ?_, hstart, hpend, hpc, hsend, herr⟩
              show c ++ String.join (S.chunkQueue ++ [t]) = _
              rw [string_join_append, string_join_singleton, htt, ← hq,
                String.append_assoc]
            · rw [if_neg hr]
              refine ⟨hm, ?_, hstart, hpend, hpc, hsend, herr⟩
              show c ++ String.join (S.chunkQueue ++ [t]) = _
              rw [string_join_append, string_join_singleton, htt, ← hq,
                String.append_assoc]

theorem flushAndFinalize_pending (S : ChatState) (aid : String)
    (hpend : S.pendingAssistantId = some aid) :
    flushAndFinalizeAssistant S =
      { S with
        rafScheduled := false
        chunkQueue := []
        messages :=
          if S.chunkQueue = [] then S.messages
          else S.messages.map (fun m =>
            if m.id = aid then
              { m with content := m.content ++ String.join S.chunkQueue }
            else m)
        hasStartedAssistant := false
        pendingAssistantId := none
        sending := false } := by
  rw [flushAndFinalizeAssistant]
  simp only [hpend]
  by_cases hq : S.chunkQueue = []
  · simp [hq]
  · simp [hq]

/-- C2: for any schedule of one send's stream (fragment emissions interleaved
arbitrarily with animation-frame flushes), the terminal
`flushAndFinalizeAssistant` leaves the assistant message content equal to the
concatenation of every emitted fragment in emission order — nothing lost,
duplicated, or reordered — with the queue flushed and the stream marked
inactive; and extending the schedule only appends to that concatenation, so a
mid-stream cancellation (which runs the same flush via the AbortError
handler) yields a prefix of the full stream's content. -/
theorem stream_tokens_complete (aid : String) (msgs : List ChatMessage)
    (pc : Option (List Json)) (hfresh : ∀ m ∈ msgs, m.id ≠ aid)
    (steps more : List StreamStep) :
    (flushAndFinalizeAssistant (runSteps aid (streamInit msgs pc) steps)).messages
        = msgs ++
          (if String.join (stepTokens steps) = "" then []
           else [⟨aid, .assistant, String.join (stepTokens steps), pc⟩])
    ∧ (flushAndFinalizeAssistant (runSteps aid (streamInit msgs pc) steps)).chunkQueue = []
    ∧ (flushAndFinalizeAssistant (runSteps aid (streamInit msgs pc) steps)).pendingAssistantId = none
    ∧ (flushAndFinalizeAssistant (runSteps aid (streamInit msgs pc) steps)).hasStartedAssistant = false
    ∧ (flushAndFinalizeAssistant (runSteps aid (streamInit msgs pc) steps)).sending = false
    ∧ String.join (stepTokens (steps ++ more))
        = String.join (stepTokens steps) ++ String.join (stepTokens more) := by
  have inv := runSteps_invariant aid msgs pc hfresh steps
  have hpre : String.join (stepTokens (steps ++ more))
      = String.join (stepTokens steps) ++ String.join (stepTokens more) := by
    rw [stepTokens_append, string_join_append]
  by_cases hj : String.join (stepTokens steps) = ""
  · rw [inv.1 hj]
    rw [if_pos hj]
    exact ⟨by simp [flushAndFinalizeAssistant, streamInit],
      rfl, rfl, rfl, rfl, hpre⟩
  · obtain ⟨c, hm, hq, hstart, hpend, hpc, hsend, herr⟩ := inv.2 hj
    set S := runSteps aid (streamInit msgs pc) steps with hS
    rw [flushAndFinalize_pending S aid hpend, if_neg hj]
    refine ⟨?_, rfl, rfl, rfl, rfl, hpre⟩
    show (if S.chunkQueue = [] then S.messages else _) = _
    by_cases hq0 : S.chunkQueue = []
    · rw [if_pos hq0]
      rw [hm]
      have hc : c = String.join (stepTokens steps) := by
        rw [← hq, hq0]
        simp [String.join]
      rw [hc]
    · rw [if_neg hq0, hm, List.map_append, map_update_fresh msgs aid hfresh]
      simp only [List.map_cons, List.map_nil, if_pos rfl]
      rw [show ({ id := aid, role := .assistant, content := c, chunks := pc } : ChatMessage).content
          ++ String.join S.chunkQueue = String.join (stepTokens steps) from hq]
      simp

/-- Concrete instantiation of `stream_tokens_complete` on a four-step
schedule. -/
theorem stream_tokens_complete_witness :
    (flushAndFinalizeAssistant (runSteps "assistant-1" (streamInit [] none)
        [.token "Hel", .raf, .token "lo", .token " world"])).messages
      = [⟨"assistant-1", .assistant, "Hello world", none⟩] := by
  have h := (stream_tokens_complete "assistant-1" [] none
      (by intro m hm; cases hm)
      [.token "Hel", .raf, .token "lo", .token " world"] []).1
  rw [h]
  rfl

/-- The synchronous section of a second `handleSend` call right after
`abortInFlightIfAny()`: reset every streaming ref (discarding the aborted
stream's queued-but-unflushed fragments), clear the error, append the new
user message, and set the loading flag.  The aborted stream's rejected read
promise runs `flushAndFinalizeAssistant` only at the next microtask
checkpoint, i.e. after this reset — it appears as a later `Step2.finalize`. -/
def secondSendStart (uid text : String) (st : ChatState) : ChatState :=
  { st with
    error := none
    hasStartedAssistant := false
    pendingAssistantId := none
    chunkQueue := []
    pendingChunks := none
    messages := st.messages ++ [{ id := uid, role := .user, content := text }]
    sending := true }

/-- Scheduler steps after the second send has started: second-stream fragment
deliveries, animation frames, and `flushAndFinalizeAssistant` runs (both the
first stream's deferred abort flush and the second stream's own flush). -/
inductive Step2 where
  | token (s : String)
  | raf
  | finalize
deriving DecidableEq, Repr

def runSteps2 (aid : String) (st : ChatState) (steps : List Step2) : ChatState :=
  steps.foldl
    (fun st step =>
      match step with
      | .token s => appendAssistantToken aid st s
      | .raf => rafFire st
      | .finalize => flushAndFinalizeAssistant st)
    st

theorem filter_map_update (l : List ChatMessage) (pid aid1 : String)
    (hne : pid ≠ aid1) (g : ChatMessage → ChatMessage)
    (hg : ∀ m, (g m).id = m.id) :
    (l.map (fun m => if m.id = pid then g m else m)).filter (fun m => m.id == aid1)
      = l.filter (fun m => m.id == aid1) := by
  induction l with
  | nil => rfl
  | cons m rest ih =>
    rw [List.map_cons]
    by_cases hm : m.id = pid
    · have h1 : ((if m.id = pid then g m else m).id == aid1) = false := by
        rw [if_pos hm, hg m, hm]
        exact beq_false_of_ne hne
      have h2 : (m.id == aid1) = false := by
        rw [hm]
        exact beq_false_of_ne hne
      rw [List.filter_cons, List.filter_cons, h1, h2]
      simpa using ih
    · rw [if_neg hm, List.filter_cons, List.filter_cons]
      by_cases ha : (m.id == aid1) = true
      · rw [ha]
        simpa using ih
      · rw [Bool.not_eq_true] at ha
        rw [ha]
        simpa using ih

theorem step2_preserves (aid1 aid2 : String) (hne : aid2 ≠ aid1)
    (st : ChatState) (hp : st.pendingAssistantId ≠ some aid1) (step : Step2) :
    (runSteps2 aid2 st [step]).messages.filter (fun m => m.id == aid1)
        = st.messages.filter (fun m => m.id == aid1)
    ∧ (runSteps2 aid2 st [step]).pendingAssistantId ≠ some aid1 := by
  cases step with
  | token s =>
    show (appendAssistantToken aid2 st s).messages.filter _ = _
      ∧ (appendAssistantToken aid2 st s).pendingAssistantId ≠ some aid1
    rw [appendAssistantToken]
    by_cases hs : s = ""
    · rw [if_pos hs]
      exact ⟨rfl, hp⟩
    · rw [if_neg hs]
      by_cases hstart : st.hasStartedAssistant = false
      · rw [if_pos hstart]
        refine ⟨?_, ?_⟩
        · show (st.messages ++
              [({ id := aid2, role := .assistant, content := s,
                  chunks := st.pendingChunks } : ChatMessage)]).filter
                (fun m => m.id == aid1)
              = st.messages.filter (fun m => m.id == aid1)
          rw [List.filter_append]
          have hb : ((⟨aid2, Role.assistant, s, st.pendingChunks⟩ : ChatMessage).id == aid1)
              = false := beq_false_of_ne hne
          simp [List.filter_cons, hb]
        · show some aid2 ≠ some aid1
          intro hcon
          exact hne (Option.some.inj hcon)
      · rw [if_neg hstart]
        by_cases hr : st.rafScheduled = true
        · rw [if_pos hr]
          exact ⟨rfl, hp⟩
        · rw [if_neg hr]
          exact ⟨rfl, hp⟩
  | raf =>
    show (rafFire st).messages.filter _ = _ ∧ (rafFire st).pendingAssistantId ≠ some aid1
    rw [rafFire]
    by_cases hraf : st.rafScheduled = false
    · rw [if_pos hraf]
      exact ⟨rfl, hp⟩
    · rw [if_neg hraf]
      cases hpd : st.pendingAssistantId with
      | none =>
        simp only [hpd]
        exact ⟨by simp, by simp⟩
      | some pid =>
        have hpid : pid ≠ aid1 := fun hcon => hp (by rw [hpd, hcon])
        simp only [hpd]
        by_cases hq : st.chunkQueue = []
        · rw [if_pos hq]
          exact ⟨by simp, by simp [hpid]⟩
        · rw [if_neg hq]
          exact ⟨filter_map_update st.messages pid aid1 hpid _ (fun m => rfl),
            by simp [hpid]⟩
  | finalize =>
    show (flushAndFinalizeAssistant st).messages.filter _ = _
      ∧ (flushAndFinalizeAssistant st).pendingAssistantId ≠ some aid1
    rw [flushAndFinalizeAssistant]
    cases hpd : st.pendingAssistantId with
    | none =>
      simp only [hpd]
      exact ⟨by simp, by simp⟩
    | some pid =>
      have hpid : pid ≠ aid1 := fun hcon => hp (by rw [hpd, hcon])
      simp only [hpd]
      by_cases hq : st.chunkQueue = []
      · rw [if_pos hq]
        exact ⟨by simp, by simp⟩
      · rw [if_neg hq]
        exact ⟨filter_map_update st.messages pid aid1 hpid _ (fun m => rfl),
          by simp⟩

theorem runSteps2_freeze (aid1 aid2 : String) (hne : aid2 ≠ aid1) :
    ∀ (steps : List Step2) (st : ChatState),
      st.pendingAssistantId ≠ some aid1 →
      (runSteps2 aid2 st steps).messages.filter (fun m => m.id == aid1)
          = st.messages.filter (fun m => m.id == aid1)
      ∧ (runSteps2 aid2 st steps).pendingAssistantId ≠ some aid1 := by
  intro steps
  induction steps with
  | nil => intro st hp; exact ⟨rfl, hp⟩
  | cons s rest ih =>
    intro st hp
    have hstep := step2_preserves aid1 aid2 hne st hp s
    have hrun : runSteps2 aid2 st (s :: rest)
        = runSteps2 aid2 (runSteps2 aid2 st [s]) rest := rfl
    rw [hrun]
    have hrest := ih (runSteps2 aid2 st [s]) hstep.2
    exact ⟨hrest.1.trans hstep.1, hrest.2⟩

theorem filter_fresh_nil (msgs : List ChatMessage) (aid : String)
    (hfresh : ∀ m ∈ msgs, m.id ≠ aid) :
    msgs.filter (fun m => m.id == aid) = [] := by
  induction msgs with
  | nil => rfl
  | cons m rest ih =>
    rw [List.filter_cons, beq_false_of_ne (hfresh m (by simp))]
    exact ih (fun x hx => hfresh x (by simp [hx]))

/-- C3: starting a second send while a first stream is active aborts the
first stream — its queued-but-unflushed fragments are discarded by the ref
reset — and freezes the first assistant message at exactly its last flushed
state: under any subsequent schedule of second-stream fragments, animation
frames, and flush/finalize runs (including the first stream's own deferred
abort flush, which runs only after the reset), the first message never
changes again, and its content is exactly the flushed part of the first
stream's emission (the emitted concatenation minus what was still queued at
the abort). -/
theorem second_send_freezes_first (aid1 aid2 uid text : String)
    (msgs : List ChatMessage) (pc : Option (List Json))
    (hfresh : ∀ m ∈ msgs, m.id ≠ aid1) (ha : aid2 ≠ aid1) (hu : uid ≠ aid1)
    (steps1 : List StreamStep) (steps2 : List Step2) :
    (secondSendStart uid text (runSteps aid1 (streamInit msgs pc) steps1)).chunkQueue = []
    ∧ (runSteps2 aid2
        (secondSendStart uid text (runSteps aid1 (streamInit msgs pc) steps1))
        steps2).messages.filter (fun m => m.id == aid1)
      = (runSteps aid1 (streamInit msgs pc) steps1).messages.filter
          (fun m => m.id == aid1)
    ∧ (String.join (stepTokens steps1) ≠ "" →
       ∃ c : String,
         (runSteps2 aid2
             (secondSendStart uid text (runSteps aid1 (streamInit msgs pc) steps1))
             steps2).messages.filter (fun m => m.id == aid1)
           = [⟨aid1, .assistant, c, pc⟩]
         ∧ c ++ String.join (runSteps aid1 (streamInit msgs pc) steps1).chunkQueue
             = String.join (stepTokens steps1)) := by
  set S1 := runSteps aid1 (streamInit msgs pc) steps1 with hS1
  have hfrozen : (runSteps2 aid2 (secondSendStart uid text S1) steps2).messages.filter
        (fun m => m.id == aid1)
      = S1.messages.filter (fun m => m.id == aid1) := by
    have hstart := runSteps2_freeze aid1 aid2 ha steps2 (secondSendStart uid text S1)
      (by show (none : Option String) ≠ some aid1; simp)
    rw [hstart.1]
    show (S1.messages ++ [({ id := uid, role := .user, content := text } : ChatMessage)]).filter
        (fun m => m.id == aid1) = _
    rw [List.filter_append]
    have hb : ((({ id := uid, role := .user, content := text } : ChatMessage)).id == aid1)
        = false := beq_false_of_ne hu
    simp [List.filter_cons, hb]
  refine ⟨rfl, hfrozen, ?_⟩
  intro hj
  obtain ⟨c, hm, hq, hrest⟩ := (runSteps_invariant aid1 msgs pc hfresh steps1).2 hj
  refine ⟨c, ?_, hq⟩
  rw [hfrozen, hm, List.filter_append, filter_fresh_nil msgs aid1 hfresh]
  simp [List.filter_cons]

/-- Concrete instantiation of `second_send_freezes_first`: two flushed
fragments ("Hel" + "lo"), two still queued at the abort, then a second send
with its own stream. -/
theorem second_send_freezes_first_witness :
    (runSteps2 "assistant-2"
        (secondSendStart "user-2" "next question"
          (runSteps "assistant-1" (streamInit [] none)
            [.token "Hel", .token "lo", .raf, .token " wor", .token "ld"]))
        [.finalize, .token "2nd", .finalize]).messages.filter
      (fun m => m.id == "assistant-1")
      = [⟨"assistant-1", .assistant, "Hello", none⟩] := by
  have h := (second_send_freezes_first "assistant-1" "assistant-2" "user-2"
      "next question" [] none (by intro m hm; cases hm) (by decide) (by decide)
      [.token "Hel", .token "lo", .raf, .token " wor", .token "ld"]
      [.finalize, .token "2nd", .finalize]).2.1
  rw [h]
  rfl

/-- Whether a JSON number lexeme denotes zero (its mantissa digits are all
zero); used for JS truthiness.  NaN cannot arise from `JSON.parse`. -/
def numLexemeIsZero (raw : String) : Bool :=
  let l := match raw.data with
    | '-' :: r => r
    | l => l
  (l.takeWhile (fun c => ¬(c = 'e' ∨ c = 'E'))).all (fun c => c = '0' ∨ c = '.')

/-- ECMAScript truthiness of a parsed JSON value (`false`, `0`, `""`, `null`
are falsy; objects and arrays are always truthy). -/
def jsTruthy : Json → Bool
  | .null => false
  | .bool b => b
  | .num raw => ¬numLexemeIsZero raw
  | .str s => s ≠ ""
  | .arr _ => true
  | .obj _ => true

/-- The `error`-event branch of the dispatcher:
`setError(err?.error || 'Server error')` inside `try`, with
`setError('Server error')` in the `catch`.  A truthy string payload is shown
verbatim; any other truthy value is stored raw. -/
def errorFromPayload (data : String) : ErrorVal :=
  match jsonParse data with
  | none => .text "Server error"
  | some j =>
    match jget j "error" with
    | some v =>
      if jsTruthy v then
        match v with
        | .str s => .text s
        | other => .raw other
      else .text "Server error"
    | none => .text "Server error"

/-- The `onEvent` callback passed to `readSSEStream` by `handleSend`:
dispatch on the event name (`retrieved_chunks`, `error`, default message
deltas). -/
def handleEvent (aid : String) (st : ChatState) (evt : SSEEvent) : ChatState :=
  if evt.event = "retrieved_chunks" then
    match jsonParse evt.data with
    | none => st
    | some j =>
      match jget j "chunks" with
      | some (.arr chunkVals) =>
        match st.pendingAssistantId with
        | some assistantId =>
          if st.hasStartedAssistant then
            { st with
              messages := st.messages.map (fun (m : ChatMessage) =>
                if m.id = assistantId then { m with chunks := some chunkVals }
                else m) }
          else { st with pendingChunks := some chunkVals }
        | none => { st with pendingChunks := some chunkVals }
      | _ => st
  else if evt.event = "error" then
    { st with error := some (errorFromPayload evt.data) }
  else
    match extract evt.data with
    | none => st
    | some .done => st
    | some (.text t) => if t = "" then st else appendAssistantToken aid st t

/-- The event loop of one send: every decoded SSE event is dispatched in
order. -/
def processEvents (aid : String) (st : ChatState) (evts : List SSEEvent) : ChatState :=
  evts.foldl (handleEvent aid) st

/-- The claim's `error` event. -/
def missingKeyEvent : SSEEvent :=
  ⟨"error", "\x7b\"error\":\"Missing key\"\x7d"⟩

/-- C4: an `error` event with payload `\x7b"error":"Missing key"\x7d` sets the
displayed error text to exactly "Missing key" and never touches the message
list; and in the missing-key scenario (the server emits the error as the
stream's only event and closes it, so the terminal flush follows at once)
the messages are unchanged, the stream is marked inactive, and no
message-content mutation occurs. -/
theorem error_event_missing_key (aid : String) (msgs : List ChatMessage)
    (pc : Option (List Json)) :
    (∀ st : ChatState,
      (handleEvent aid st missingKeyEvent).messages = st.messages
      ∧ (handleEvent aid st missingKeyEvent).error = some (.text "Missing key"))
    ∧ (flushAndFinalizeAssistant
        (processEvents aid (streamInit msgs pc) [missingKeyEvent])).messages = msgs
    ∧ (flushAndFinalizeAssistant
        (processEvents aid (streamInit msgs pc) [missingKeyEvent])).error
      = some (.text "Missing key")
    ∧ (flushAndFinalizeAssistant
        (processEvents aid (streamInit msgs pc) [missingKeyEvent])).sending = false
    ∧ (flushAndFinalizeAssistant
        (processEvents aid (streamInit msgs pc) [missingKeyEvent])).pendingAssistantId
      = none := by
  have hbranch : ∀ st : ChatState,
      handleEvent aid st missingKeyEvent
        = { st with error := some (.text "Missing key") } := by
    intro st
    rw [handleEvent, if_neg (by decide),
      if_pos (show missingKeyEvent.event = "error" from rfl)]
    rw [show errorFromPayload missingKeyEvent.data = .text "Missing key" from rfl]
  refine ⟨fun st => by rw [hbranch st]; exact ⟨rfl, rfl⟩, ?_, ?_, ?_, ?_⟩ <;>
    rw [show processEvents aid (streamInit msgs pc) [missingKeyEvent]
        = handleEvent aid (streamInit msgs pc) missingKeyEvent from rfl,
      hbranch (streamInit msgs pc)] <;>
    rfl

/-!
`toPlaceholderSpans` from `src/components/AnnotatedMarkdown.tsx`, embedded
over character lists.  The JS regex operations are embedded as explicit
scanners with the same leftmost, non-overlapping semantics:
* the two trailing-partial-tag masks use a non-global anchored regex whose
  alternatives contain `<` only in first position, so the only candidate
  match site is the suffix starting at the last `<` of the string;
* the global replaces scan left to right, resuming after each match, and
  never rescan replacement text.
-/

/-- `escapeHtml`: the five chained global replaces are equivalent to this
character-wise map, since no replacement introduces a character that a later
pass rewrites. -/
def escapeChar (c : Char) : List Char :=
  if c = '&' then "&amp;".data
  else if c = '<' then "&lt;".data
  else if c = '>' then "&gt;".data
  else if c = '"' then "&quot;".data
  else if c = Char.ofNat 39 then "&#39;".data
  else [c]

def escapeHtml (s : List Char) : List Char :=
  (s.map escapeChar).flatten

/-- What may follow the `<` (respectively `</`) of a trailing partial tag:
a prefix of `chunk_`, or `chunk_` followed by at most three digits. -/
def isPartialTagBody (l : List Char) : Bool :=
  l.isPrefixOf "chunk_".data
  ∨ ("chunk_".data.isPrefixOf l ∧ (l.drop 6).length ≤ 3 ∧ (l.drop 6).all isDigitChar)

/-- Matches of `/<(?:c(?:h(?:u(?:n(?:k(?:_(?:\d\x7b0,3\x7d)?)?)?)?)?)?)?$/`. -/
def isPartialOpen : List Char → Bool
  | '<' :: body => isPartialTagBody body
  | _ => false

/-- Matches of the symmetric closing-fragment regex (`</` then the body). -/
def isPartialClose : List Char → Bool
  | '<' :: '/' :: body => isPartialTagBody body
  | _ => false

/-- Split a string at its last `<`: `(before, suffix-from-last-lt)`. -/
def lastLtSplit : List Char → Option (List Char × List Char)
  | [] => none
  | c :: cs =>
    match lastLtSplit cs with
    | some (a, t) => some (c :: a, t)
    | none => if c = '<' then some ([], c :: cs) else none

/-- `maskTrailingPartialStarts`: strip a trailing partial opening tag. -/
def maskTrailingPartialStarts (s : List Char) : List Char :=
  match lastLtSplit s with
  | some (a, t) => if isPartialOpen t then a else s
  | none => s

/-- `maskTrailingPartialEnds`: strip a trailing partial closing tag. -/
def maskTrailingPartialEnds (s : List Char) : List Char :=
  match lastLtSplit s with
  | some (a, t) => if isPartialClose t then a else s
  | none => s

/-- `Number(numStr)` for a short digit string. -/
def digitsToNat (ds : List Char) : Nat :=
  ds.foldl (fun acc c => acc * 10 + (c.toNat - '0'.toNat)) 0

/-- Matches `<chunk_(\d\x7b1,3\x7d)>` at the head of the input: the capture and
the rest.  A digit run longer than three fails here exactly as the regex
does (every backtracked shorter capture is followed by a digit, not `>`). -/
def matchOpen (l : List Char) : Option (List Char × List Char) :=
  match l with
  | '<' :: rest =>
    if "chunk_".data.isPrefixOf rest then
      if 1 ≤ ((rest.drop 6).takeWhile isDigitChar).length
          ∧ ((rest.drop 6).takeWhile isDigitChar).length ≤ 3 then
        match (rest.drop 6).dropWhile isDigitChar with
        | '>' :: r => some ((rest.drop 6).takeWhile isDigitChar, r)
        | _ => none
      else none
    else none
  | _ => none

/-- Shared tail of the stray-closing-tag match: after `</`, expects
`chunk_` ++ one-to-three digits ++ `>`. -/
def matchTagFrom (l : List Char) : Option (List Char) :=
  if "chunk_".data.isPrefixOf l then
    if 1 ≤ ((l.drop 6).takeWhile isDigitChar).length
        ∧ ((l.drop 6).takeWhile isDigitChar).length ≤ 3 then
      match (l.drop 6).dropWhile isDigitChar with
      | '>' :: r => some r
      | _ => none
    else none
  else none

/-- Matches `</chunk_(\d\x7b1,3\x7d)>` at the head of the input. -/
def matchCloseTag (l : List Char) : Option (List Char) :=
  match l with
  | '<' :: '/' :: rest => matchTagFrom rest
  | _ => none

/-- Matches `<\/?chunk_\d\x7b1,3\x7d>` at the head of the input. -/
def matchTag (l : List Char) : Option (List Char) :=
  match matchCloseTag l with
  | some r => some r
  | none =>
    match matchOpen l with
    | some (_, r) => some r
    | none => none

theorem matchTagFrom_length {l r : List Char} (h : matchTagFrom l = some r) :
    r.length < l.length := by
  rw [matchTagFrom] at h
  by_cases hp : "chunk_".data.isPrefixOf l = true
  · rw [if_pos hp] at h
    have hlen : 6 ≤ l.length := by
      have := List.IsPrefix.length_le (List.isPrefixOf_iff_prefix.mp hp)
      simpa using this
    by_cases hd : 1 ≤ ((l.drop 6).takeWhile isDigitChar).length
        ∧ ((l.drop 6).takeWhile isDigitChar).length ≤ 3
    · rw [if_pos hd] at h
      cases hw : (l.drop 6).dropWhile isDigitChar with
      | nil => rw [hw] at h; cases h
      | cons c cs =>
        rw [hw] at h
        by_cases hc : c = '>'
        · subst hc
          simp at h
          subst h
          have hDW := List.takeWhile_append_dropWhile isDigitChar (l.drop 6)
          have hlens := congrArg List.length hDW
          rw [hw] at hlens
          simp at hlens
          have hA : (l.drop 6).length = l.length - 6 := by simp
          have hD := hd.1
          omega
        · rw [show (match (c :: cs : List Char) with
              | '>' :: r => some r
              | _ => none) = (none : Option (List Char)) from by
              simp [hc]] at h
          cases h
    · rw [if_neg hd] at h
      cases h
  · rw [if_neg hp] at h
    cases h

theorem matchOpen_eq_matchTagFrom (cs : List Char) :
    matchOpen ('<' :: cs) = (matchTagFrom cs).map
      (fun r => ((cs.drop 6).takeWhile isDigitChar, r)) := by
  rw [matchOpen, matchTagFrom]
  by_cases hp : "chunk_".data.isPrefixOf cs = true
  · rw [if_pos hp, if_pos hp]
    by_cases hd : 1 ≤ ((cs.drop 6).takeWhile isDigitChar).length
        ∧ ((cs.drop 6).takeWhile isDigitChar).length ≤ 3
    · rw [if_pos hd, if_pos hd]
      cases hw : (cs.drop 6).dropWhile isDigitChar with
      | nil => rfl
      | cons x xs =>
        by_cases hx : x = '>'
        · subst hx
          rfl
        · cases x
          simp_all
    · rw [if_neg hd, if_neg hd]
      rfl
  · rw [if_neg hp, if_neg hp]
    rfl

theorem matchOpen_none_of_head {c : Char} {cs : List Char} (hc : c ≠ '<') :
    matchOpen (c :: cs) = none := by
  rw [matchOpen]
  cases c
  simp_all

theorem matchOpen_length {l ds r : List Char} (h : matchOpen l = some (ds, r)) :
    r.length < l.length := by
  cases l with
  | nil => cases h
  | cons c cs =>
    by_cases hc : c = '<'
    · subst hc
      rw [matchOpen_eq_matchTagFrom] at h
      cases hf : matchTagFrom cs with
      | none => rw [hf] at h; cases h
      | some r2 =>
        rw [hf] at h
        simp at h
        obtain ⟨hds, hr⟩ := h
        subst hr
        have := matchTagFrom_length hf
        simp
        omega
    · rw [matchOpen_none_of_head hc] at h
      cases h

theorem matchCloseTag_length {l r : List Char} (h : matchCloseTag l = some r) :
    r.length < l.length := by
  match l with
  | [] => cases h
  | [c] =>
    by_cases h1 : c = '<'
    · subst h1
      rw [show matchCloseTag ['<'] = none from rfl] at h
      cases h
    · rw [show matchCloseTag [c] = none from by
        rw [matchCloseTag]
        cases c
        simp_all] at h
      cases h
  | c1 :: c2 :: cs =>
    by_cases h1 : c1 = '<'
    · by_cases h2 : c2 = '/'
      · subst h1; subst h2
        rw [show matchCloseTag ('<' :: '/' :: cs) = matchTagFrom cs from rfl] at h
        have := matchTagFrom_length h
        simp
        omega
      · rw [show matchCloseTag (c1 :: c2 :: cs) = none from by
          subst h1
          rw [matchCloseTag]
          cases c2
          simp_all] at h
        cases h
    · rw [show matchCloseTag (c1 :: c2 :: cs) = none from by
        rw [matchCloseTag]
        cases c1
        simp_all] at h
      cases h

theorem matchTag_length {l r : List Char} (h : matchTag l = some r) :
    r.length < l.length := by
  rw [matchTag] at h
  cases hc : matchCloseTag l with
  | some r2 =>
    rw [hc] at h
    simp at h
    subst h
    exact matchCloseTag_length hc
  | none =>
    rw [hc] at h
    cases ho : matchOpen l with
    | none => rw [ho] at h; cases h
    | some p =>
      obtain ⟨ds, r2⟩ := p
      rw [ho] at h
      simp at h
      subst h
      exact matchOpen_length ho

/-- `src.replace(/<\/?chunk_\d\x7b1,3\x7d>/g, '')`: leftmost non-overlapping
removal of every complete tag. -/
def stripTags (l : List Char) : List Char :=
  match l with
  | [] => []
  | c :: cs =>
    match h : matchTag (c :: cs) with
    | some rest => stripTags rest
    | none => c :: stripTags cs
termination_by l.length
decreasing_by
  · exact matchTag_length h
  · simp

theorem stripTags_nil : stripTags [] = [] := by
  rw [stripTags]

theorem stripTags_cons_some {c : Char} {cs rest : List Char}
    (h : matchTag (c :: cs) = some rest) :
    stripTags (c :: cs) = stripTags rest := by
  rw [stripTags]
  split
  · rename_i r heq
    rw [h] at heq
    simp at heq
    rw [heq]
  · rename_i heq
    rw [h] at heq
    cases heq

theorem stripTags_cons_none {c : Char} {cs : List Char}
    (h : matchTag (c :: cs) = none) :
    stripTags (c :: cs) = c :: stripTags cs := by
  rw [stripTags]
  split
  · rename_i r heq
    rw [h] at heq
    cases heq
  · rfl

/-- The lazy inner capture `([\s\S]*?)` followed by the backreferenced
closing tag: scan for the first occurrence of `close`, returning the inner
text before it and the rest after it. -/
def findClose (close : List Char) : List Char → Option (List Char × List Char)
  | [] => none
  | c :: cs =>
    if close.isPrefixOf (c :: cs) then some ([], (c :: cs).drop close.length)
    else
      match findClose close cs with
      | none => none
      | some (inner, rest) => some (c :: inner, rest)

def closeTagFor (ds : List Char) : List Char :=
  "</chunk_".data ++ ds ++ ['>']

/-- One match of the pair regex `<chunk_(\d\x7b1,3\x7d)>([\s\S]*?)<\/chunk_\1>`
at the head of the input: capture, inner text, rest. -/
def matchPair (l : List Char) : Option (List Char × List Char × List Char) :=
  match matchOpen l with
  | none => none
  | some (ds, afterOpen) =>
    match findClose (closeTagFor ds) afterOpen with
    | none => none
    | some (inner, rest) => some (ds, inner, rest)

theorem findClose_length {close : List Char} (hc : close ≠ []) :
    ∀ {l inner rest : List Char}, findClose close l = some (inner, rest) →
      rest.length < l.length := by
  intro l
  induction l with
  | nil => intro inner rest h; cases h
  | cons c cs ih =>
    intro inner rest h
    rw [findClose] at h
    by_cases hp : close.isPrefixOf (c :: cs) = true
    · rw [if_pos hp] at h
      simp at h
      rw [← h.2]
      have hlen : 1 ≤ close.length := by
        cases close with
        | nil => exact absurd rfl hc
        | cons x xs => simp
      simp
      omega
    · rw [if_neg hp] at h
      cases hf : findClose close cs with
      | none => rw [hf] at h; cases h
      | some p =>
        obtain ⟨i2, r2⟩ := p
        rw [hf] at h
        simp at h
        have := ih hf
        rw [← h.2]
        simp
        omega

theorem closeTagFor_ne_nil (ds : List Char) : closeTagFor ds ≠ [] := by
  simp [closeTagFor]

theorem matchPair_length {l ds inner rest : List Char}
    (h : matchPair l = some (ds, inner, rest)) : rest.length < l.length := by
  rw [matchPair] at h
  cases ho : matchOpen l with
  | none => rw [ho] at h; cases h
  | some p =>
    obtain ⟨ds2, afterOpen⟩ := p
    simp only [ho] at h
    cases hf : findClose (closeTagFor ds2) afterOpen with
    | none =>
      simp only [hf] at h
      cases h
    | some q =>
      obtain ⟨i2, r2⟩ := q
      simp only [hf] at h
      simp at h
      have h1 := findClose_length (closeTagFor_ne_nil ds2) hf
      have h2 := matchOpen_length ho
      rw [← h.2.2]
      omega

/-- The replacement callback of the pair regex: an out-of-range index keeps
the escaped inner text; an in-range index wraps it in the placeholder span,
whose attribute shows `Number(numStr)` in decimal. -/
def pairReplacement (chunksLen : Nat) (ds inner : List Char) : List Char :=
  let index := digitsToNat ds
  if index < 1 ∨ index > chunksLen then escapeHtml inner
  else
    "<span data-chunk-id=\"".data ++ (toString index).data ++ "\">".data
      ++ escapeHtml inner ++ "</span>".data

/-- `src.replace(pairPattern, ...)` with the global flag: leftmost
non-overlapping matches, scanning resumes after each match, replacement text
is never rescanned. -/
def replacePairs (chunksLen : Nat) (l : List Char) : List Char :=
  match l with
  | [] => []
  | c :: cs =>
    match h : matchPair (c :: cs) with
    | some (ds, inner, rest) =>
      pairReplacement chunksLen ds inner ++ replacePairs chunksLen rest
    | none => c :: replacePairs chunksLen cs
termination_by l.length
decreasing_by
  · exact matchPair_length h
  · simp

theorem replacePairs_nil (n : Nat) : replacePairs n [] = [] := by
  rw [replacePairs]

theorem replacePairs_cons_some {n : Nat} {c : Char} {cs ds inner rest : List Char}
    (h : matchPair (c :: cs) = some (ds, inner, rest)) :
    replacePairs n (c :: cs) = pairReplacement n ds inner ++ replacePairs n rest := by
  rw [replacePairs]
  split
  · rename_i d2 i2 r2 heq
    rw [h] at heq
    simp at heq
    rw [heq.1, heq.2.1, heq.2.2]
  · rename_i heq
    rw [h] at heq
    cases heq

theorem replacePairs_cons_none {n : Nat} {c : Char} {cs : List Char}
    (h : matchPair (c :: cs) = none) :
    replacePairs n (c :: cs) = c :: replacePairs n cs := by
  rw [replacePairs]
  split
  · rename_i d2 i2 r2 heq
    rw [h] at heq
    cases heq
  · rfl

/-- `out.replace(/<chunk_(\d\x7b1,3\x7d)>/g, '')`. -/
def removeStrayOpen (l : List Char) : List Char :=
  match l with
  | [] => []
  | c :: cs =>
    match h : matchOpen (c :: cs) with
    | some (_, rest) => removeStrayOpen rest
    | none => c :: removeStrayOpen cs
termination_by l.length
decreasing_by
  · exact matchOpen_length h
  · simp

/-- `out.replace(/<\/chunk_(\d\x7b1,3\x7d)>/g, '')`. -/
def removeStrayClose (l : List Char) : List Char :=
  match l with
  | [] => []
  | c :: cs =>
    match h : matchCloseTag (c :: cs) with
    | some rest => removeStrayClose rest
    | none => c :: removeStrayClose cs
termination_by l.length
decreasing_by
  · exact matchCloseTag_length h
  · simp

/-- `toPlaceholderSpans` from `AnnotatedMarkdown.tsx`: mask trailing partial
tags, then either strip complete tags outright (no chunk data yet) or
replace complete matched pairs with placeholder spans and drop stray tags. -/
def toPlaceholderSpans (input : String) (chunks : Option (List String)) : String :=
  match chunks with
  | none =>
    String.mk (stripTags
      (maskTrailingPartialEnds (maskTrailingPartialStarts input.data)))
  | some cl =>
    if cl.length = 0 then
      String.mk (stripTags
        (maskTrailingPartialEnds (maskTrailingPartialStarts input.data)))
    else
      String.mk (removeStrayClose (removeStrayOpen (replacePairs cl.length
        (maskTrailingPartialEnds (maskTrailingPartialStarts input.data)))))

theorem matchCloseTag_none_of_head {c : Char} {cs : List Char} (hc : c ≠ '<') :
    matchCloseTag (c :: cs) = none := by
  rw [matchCloseTag]
  cases cs with
  | nil =>
    cases c
    simp_all
  | cons c2 cs2 =>
    cases c
    cases c2
    simp_all

theorem matchTag_none_of_head {c : Char} {cs : List Char} (hc : c ≠ '<') :
    matchTag (c :: cs) = none := by
  rw [matchTag, matchCloseTag_none_of_head hc, matchOpen_none_of_head hc]

theorem matchPair_none_of_head {c : Char} {cs : List Char} (hc : c ≠ '<') :
    matchPair (c :: cs) = none := by
  rw [matchPair, matchOpen_none_of_head hc]

theorem stripTags_append_no_lt {a : List Char} (ha : '<' ∉ a) (b : List Char) :
    stripTags (a ++ b) = a ++ stripTags b := by
  induction a with
  | nil => simp
  | cons c cs ih =>
    have hc : c ≠ '<' := fun h => ha (h ▸ List.mem_cons_self c cs)
    rw [List.cons_append, stripTags_cons_none (matchTag_none_of_head hc),
      ih (fun h => ha (List.mem_cons_of_mem c h))]
    simp

theorem replacePairs_append_no_lt {a : List Char} (n : Nat) (ha : '<' ∉ a)
    (b : List Char) : replacePairs n (a ++ b) = a ++ replacePairs n b := by
  induction a with
  | nil => simp
  | cons c cs ih =>
    have hc : c ≠ '<' := fun h => ha (h ▸ List.mem_cons_self c cs)
    rw [List.cons_append, replacePairs_cons_none (matchPair_none_of_head hc),
      ih (fun h => ha (List.mem_cons_of_mem c h))]
    simp

theorem removeStrayOpen_cons_none {c : Char} {cs : List Char}
    (h : matchOpen (c :: cs) = none) :
    removeStrayOpen (c :: cs) = c :: removeStrayOpen cs := by
  rw [removeStrayOpen]
  split
  · rename_i d r heq
    rw [h] at heq
    cases heq
  · rfl

theorem removeStrayClose_cons_none {c : Char} {cs : List Char}
    (h : matchCloseTag (c :: cs) = none) :
    removeStrayClose (c :: cs) = c :: removeStrayClose cs := by
  rw [removeStrayClose]
  split
  · rename_i r heq
    rw [h] at heq
    cases heq
  · rfl

theorem removeStrayOpen_append_no_lt {a : List Char} (ha : '<' ∉ a)
    (b : List Char) : removeStrayOpen (a ++ b) = a ++ removeStrayOpen b := by
  induction a with
  | nil => simp
  | cons c cs ih =>
    have hc : c ≠ '<' := fun h => ha (h ▸ List.mem_cons_self c cs)
    rw [List.cons_append, removeStrayOpen_cons_none (matchOpen_none_of_head hc),
      ih (fun h => ha (List.mem_cons_of_mem c h))]
    simp

theorem removeStrayClose_append_no_lt {a : List Char} (ha : '<' ∉ a)
    (b : List Char) : removeStrayClose (a ++ b) = a ++ removeStrayClose b := by
  induction a with
  | nil => simp
  | cons c cs ih =>
    have hc : c ≠ '<' := fun h => ha (h ▸ List.mem_cons_self c cs)
    rw [List.cons_append, removeStrayClose_cons_none (matchCloseTag_none_of_head hc),
      ih (fun h => ha (List.mem_cons_of_mem c h))]
    simp

theorem stripTags_no_lt {a : List Char} (ha : '<' ∉ a) : stripTags a = a := by
  have := stripTags_append_no_lt ha []
  simpa [stripTags_nil] using this

theorem replacePairs_no_lt {a : List Char} (n : Nat) (ha : '<' ∉ a) :
    replacePairs n a = a := by
  have := replacePairs_append_no_lt n ha []
  simpa [replacePairs_nil] using this

theorem removeStrayOpen_nil : removeStrayOpen [] = [] := by rw [removeStrayOpen]

theorem removeStrayClose_nil : removeStrayClose [] = [] := by rw [removeStrayClose]

theorem removeStrayOpen_no_lt {a : List Char} (ha : '<' ∉ a) :
    removeStrayOpen a = a := by
  have := removeStrayOpen_append_no_lt ha []
  simpa [removeStrayOpen_nil] using this

theorem removeStrayClose_no_lt {a : List Char} (ha : '<' ∉ a) :
    removeStrayClose a = a := by
  have := removeStrayClose_append_no_lt ha []
  simpa [removeStrayClose_nil] using this

theorem lastLtSplit_none {s : List Char} (hs : '<' ∉ s) : lastLtSplit s = none := by
  induction s with
  | nil => rfl
  | cons c cs ih =>
    rw [lastLtSplit, ih (fun h => hs (List.mem_cons_of_mem c h))]
    have hc : ¬(c = '<') := fun h => hs (by rw [h]; exact List.mem_cons_self _ _)
    rw [if_neg hc]

theorem lastLtSplit_append_some {b a t : List Char}
    (h : lastLtSplit b = some (a, t)) (x : List Char) :
    lastLtSplit (x ++ b) = some (x ++ a, t) := by
  induction x with
  | nil => simpa using h
  | cons c cs ih =>
    rw [List.cons_append, lastLtSplit, ih]
    rfl

theorem lastLtSplit_lt_no_lt {b : List Char} (hb : '<' ∉ b) :
    lastLtSplit ('<' :: b) = some ([], '<' :: b) := by
  rw [lastLtSplit, lastLtSplit_none hb]
  simp

theorem isPartialTagBody_no_gt {l : List Char} (h : isPartialTagBody l = true) :
    '>' ∉ l := by
  intro hmem
  rw [isPartialTagBody] at h
  simp at h
  rcases h with h | h
  · exact absurd (h.subset hmem) (by decide)
  · obtain ⟨h1, h2, h3⟩ := h
    obtain ⟨tail, htail⟩ := h1
    have hlen : l.drop 6 = tail := by
      rw [← htail, show (6 : Nat) = "chunk_".data.length from rfl]
      exact List.drop_left _ _
    rcases List.mem_append.mp (htail ▸ hmem) with hin | hin
    · exact absurd hin (by decide)
    · have := h3 '>' (hlen ▸ hin)
      revert this
      decide

theorem isPartialOpen_false_of_gt {t : List Char} (h : '>' ∈ t) :
    isPartialOpen t = false := by
  cases t with
  | nil => rfl
  | cons c cs =>
    by_cases hc : c = '<'
    · subst hc
      show isPartialTagBody cs = false
      by_cases hb : isPartialTagBody cs = true
      · exfalso
        have := isPartialTagBody_no_gt hb
        rcases List.mem_cons.mp h with h1 | h1
        · cases h1
        · exact this h1
      · simpa using hb
    · rw [isPartialOpen]
      cases c
      simp_all

theorem isPartialClose_false_of_gt {t : List Char} (h : '>' ∈ t) :
    isPartialClose t = false := by
  match t with
  | [] => rfl
  | [c] =>
    by_cases hc : c = '<'
    · subst hc
      rfl
    · rw [isPartialClose]
      cases c
      simp_all
  | c1 :: c2 :: cs =>
    by_cases h1 : c1 = '<'
    · by_cases h2 : c2 = '/'
      · subst h1
        subst h2
        show isPartialTagBody cs = false
        by_cases hb : isPartialTagBody cs = true
        · exfalso
          have := isPartialTagBody_no_gt hb
          rcases List.mem_cons.mp h with hx | hx
          · cases hx
          · rcases List.mem_cons.mp hx with hy | hy
            · cases hy
            · exact this hy
        · simpa using hb
      · rw [isPartialClose]
        subst h1
        cases c2
        simp_all
    · rw [isPartialClose]
      cases c1
      simp_all

theorem maskStarts_id_of_gt {s a t : List Char}
    (h : lastLtSplit s = some (a, t)) (hg : '>' ∈ t) :
    maskTrailingPartialStarts s = s := by
  rw [maskTrailingPartialStarts, h]
  simp [isPartialOpen_false_of_gt hg]

theorem maskEnds_id_of_gt {s a t : List Char}
    (h : lastLtSplit s = some (a, t)) (hg : '>' ∈ t) :
    maskTrailingPartialEnds s = s := by
  rw [maskTrailingPartialEnds, h]
  simp [isPartialClose_false_of_gt hg]

theorem maskStarts_id_no_lt {s : List Char} (hs : '<' ∉ s) :
    maskTrailingPartialStarts s = s := by
  rw [maskTrailingPartialStarts, lastLtSplit_none hs]

theorem maskEnds_id_no_lt {s : List Char} (hs : '<' ∉ s) :
    maskTrailingPartialEnds s = s := by
  rw [maskTrailingPartialEnds, lastLtSplit_none hs]

/-- The text of a complete opening tag `<chunk_N>`. -/
def openTagFor (ds : List Char) : List Char :=
  "<chunk_".data ++ ds ++ ['>']

theorem takeWhile_digits_append {ds : List Char} (hds : ∀ c ∈ ds, isDigitChar c)
    (r : List Char) :
    (ds ++ '>' :: r).takeWhile isDigitChar = ds
    ∧ (ds ++ '>' :: r).dropWhile isDigitChar = '>' :: r := by
  induction ds with
  | nil =>
    constructor
    · rw [List.nil_append, List.takeWhile_cons]
      simp [isDigitChar]
    · rw [List.nil_append, List.dropWhile_cons]
      simp [isDigitChar]
  | cons d dt ih =>
    have hd : isDigitChar d = true := hds d (by simp)
    have iht := ih (fun c hc => hds c (by simp [hc]))
    constructor
    · rw [List.cons_append, List.takeWhile_cons, hd]
      simp [iht.1]
    · rw [List.cons_append, List.dropWhile_cons, hd]
      simpa using iht.2

theorem matchTagFrom_tag {ds : List Char} (h1 : 1 ≤ ds.length)
    (h3 : ds.length ≤ 3) (hds : ∀ c ∈ ds, isDigitChar c) (r : List Char) :
    matchTagFrom ("chunk_".data ++ (ds ++ '>' :: r)) = some r := by
  rw [matchTagFrom]
  rw [if_pos (List.isPrefixOf_iff_prefix.mpr ⟨ds ++ '>' :: r, rfl⟩)]
  have hdrop : ("chunk_".data ++ (ds ++ '>' :: r)).drop 6 = ds ++ '>' :: r := by
    rw [show (6 : Nat) = "chunk_".data.length from rfl]
    exact List.drop_left _ _
  rw [hdrop, (takeWhile_digits_append hds r).1, if_pos ⟨h1, h3⟩,
    (takeWhile_digits_append hds r).2]
  rfl

theorem matchOpen_tag {ds : List Char} (h1 : 1 ≤ ds.length)
    (h3 : ds.length ≤ 3) (hds : ∀ c ∈ ds, isDigitChar c) (r : List Char) :
    matchOpen (openTagFor ds ++ r) = some (ds, r) := by
  have hshape : openTagFor ds ++ r = '<' :: ("chunk_".data ++ (ds ++ '>' :: r)) := by
    rw [openTagFor]
    simp
  rw [hshape, matchOpen_eq_matchTagFrom, matchTagFrom_tag h1 h3 hds r]
  have hdrop : ("chunk_".data ++ (ds ++ '>' :: r)).drop 6 = ds ++ '>' :: r := by
    rw [show (6 : Nat) = "chunk_".data.length from rfl]
    exact List.drop_left _ _
  simp [hdrop, (takeWhile_digits_append hds r).1]

theorem matchCloseTag_cons_cons_none {c2 : Char} {cs : List Char} (h2 : c2 ≠ '/') :
    matchCloseTag ('<' :: c2 :: cs) = none := by
  rw [matchCloseTag]
  cases c2
  simp_all

theorem matchCloseTag_tag {ds : List Char} (h1 : 1 ≤ ds.length)
    (h3 : ds.length ≤ 3) (hds : ∀ c ∈ ds, isDigitChar c) (r : List Char) :
    matchCloseTag (closeTagFor ds ++ r) = some r := by
  have hshape : closeTagFor ds ++ r
      = '<' :: '/' :: ("chunk_".data ++ (ds ++ '>' :: r)) := by
    rw [closeTagFor]
    simp
  rw [hshape, show matchCloseTag ('<' :: '/' :: ("chunk_".data ++ (ds ++ '>' :: r)))
      = matchTagFrom ("chunk_".data ++ (ds ++ '>' :: r)) from rfl,
    matchTagFrom_tag h1 h3 hds r]

theorem matchCloseTag_openTag (ds : List Char) (r : List Char) :
    matchCloseTag (openTagFor ds ++ r) = none := by
  have hshape : openTagFor ds ++ r = '<' :: 'c' :: ("hunk_".data ++ (ds ++ '>' :: r)) := by
    rw [openTagFor]
    simp
  rw [hshape, matchCloseTag_cons_cons_none (by decide)]

theorem matchTag_openTag {ds : List Char} (h1 : 1 ≤ ds.length)
    (h3 : ds.length ≤ 3) (hds : ∀ c ∈ ds, isDigitChar c) (r : List Char) :
    matchTag (openTagFor ds ++ r) = some r := by
  rw [matchTag, matchCloseTag_openTag, matchOpen_tag h1 h3 hds r]

theorem matchTag_closeTag {ds : List Char} (h1 : 1 ≤ ds.length)
    (h3 : ds.length ≤ 3) (hds : ∀ c ∈ ds, isDigitChar c) (r : List Char) :
    matchTag (closeTagFor ds ++ r) = some r := by
  rw [matchTag, matchCloseTag_tag h1 h3 hds r]

theorem findClose_exact {ctail : List Char} {inner : List Char}
    (hinner : '<' ∉ inner) (rest : List Char) :
    findClose ('<' :: ctail) (inner ++ ('<' :: ctail) ++ rest) = some (inner, rest) := by
  induction inner with
  | nil =>
    rw [List.nil_append, List.cons_append, findClose]
    rw [if_pos (List.isPrefixOf_iff_prefix.mpr ⟨rest, by simp⟩)]
    rw [show ('<' :: (ctail ++ rest)).drop ('<' :: ctail).length = rest from by
      rw [show ('<' :: (ctail ++ rest)) = ('<' :: ctail) ++ rest from by simp]
      exact List.drop_left _ _]
  | cons c cs ih =>
    have hc : c ≠ '<' := fun h => hinner (h ▸ List.mem_cons_self c cs)
    rw [List.cons_append, List.cons_append, findClose]
    rw [if_neg (by
      intro hcon
      have hpre := List.isPrefixOf_iff_prefix.mp hcon
      have := (List.cons_prefix_cons.mp hpre).1
      exact hc this.symm)]
    rw [show (cs ++ ('<' :: ctail)) ++ rest = cs ++ ('<' :: ctail) ++ rest from rfl,
      ih (fun h => hinner (List.mem_cons_of_mem c h))]

theorem matchPair_exact {ds inner : List Char} (h1 : 1 ≤ ds.length)
    (h3 : ds.length ≤ 3) (hds : ∀ c ∈ ds, isDigitChar c)
    (hinner : '<' ∉ inner) (rest : List Char) :
    matchPair (openTagFor ds ++ inner ++ closeTagFor ds ++ rest)
      = some (ds, inner, rest) := by
  rw [matchPair]
  have hshape : openTagFor ds ++ inner ++ closeTagFor ds ++ rest
      = openTagFor ds ++ (inner ++ closeTagFor ds ++ rest) := by simp
  have hclose : closeTagFor ds = '<' :: ('/' :: ("chunk_".data ++ (ds ++ ['>']))) := by
    rw [closeTagFor]
    simp
  rw [hshape, matchOpen_tag h1 h3 hds]
  show (match findClose (closeTagFor ds) (inner ++ closeTagFor ds ++ rest) with
    | none => none
    | some (inner2, rest2) => some (ds, inner2, rest2))
    = some (ds, inner, rest)
  rw [hclose, findClose_exact hinner rest]

/-- C9: plain text with no `<` passes through `toPlaceholderSpans` untouched,
whatever the chunk argument is. -/
theorem toPlaceholderSpans_no_tag_identity (s : String)
    (chunks : Option (List String)) (hs : '<' ∉ s.data) :
    toPlaceholderSpans s chunks = s := by
  cases chunks with
  | none =>
    show String.mk (stripTags (maskTrailingPartialEnds
      (maskTrailingPartialStarts s.data))) = s
    rw [maskStarts_id_no_lt hs, maskEnds_id_no_lt hs, stripTags_no_lt hs]
  | some cl =>
    by_cases hl : cl.length = 0
    · show (if cl.length = 0 then _ else _) = s
      rw [if_pos hl]
      rw [maskStarts_id_no_lt hs, maskEnds_id_no_lt hs, stripTags_no_lt hs]
    · show (if cl.length = 0 then _ else _) = s
      rw [if_neg hl]
      rw [maskStarts_id_no_lt hs, maskEnds_id_no_lt hs, replacePairs_no_lt _ hs,
        removeStrayOpen_no_lt hs, removeStrayClose_no_lt hs]

/-- Concrete instantiation of `toPlaceholderSpans_no_tag_identity`. -/
theorem toPlaceholderSpans_no_tag_identity_witness :
    toPlaceholderSpans "mitochondria make ATP > ADP" (some ["passage"])
      = "mitochondria make ATP > ADP" :=
  toPlaceholderSpans_no_tag_identity "mitochondria make ATP > ADP"
    (some ["passage"]) (by decide)

theorem isDigitChar_ne_lt {c : Char} (h : isDigitChar c = true) : c ≠ '<' := by
  intro hc
  subst hc
  revert h
  decide

theorem isDigitChar_ne_gt {c : Char} (h : isDigitChar c = true) : c ≠ '>' := by
  intro hc
  subst hc
  revert h
  decide

/-- One complete citation tag occurrence: closing flag plus digit lexeme. -/
structure TagTok where
  closing : Bool
  digits : List Char

def tagText (t : TagTok) : List Char :=
  if t.closing then closeTagFor t.digits else openTagFor t.digits

def wfTag (t : TagTok) : Prop :=
  1 ≤ t.digits.length ∧ t.digits.length ≤ 3 ∧ ∀ c ∈ t.digits, isDigitChar c

/-- A text assembled from `<`-free segments separated by complete tags. -/
def interleave : List (List Char × TagTok) → List Char → List Char
  | [], last => last
  | (seg, tag) :: rest, last => seg ++ tagText tag ++ interleave rest last

/-- The same text with every tag deleted and all inner text kept. -/
def segsOnly : List (List Char × TagTok) → List Char → List Char
  | [], last => last
  | (seg, _) :: rest, last => seg ++ segsOnly rest last

theorem tagText_decomp (t : TagTok) (hwf : wfTag t) :
    ∃ body, tagText t = '<' :: body ∧ '<' ∉ body ∧ '>' ∈ body := by
  obtain ⟨h1, h3, hds⟩ := hwf
  cases hcl : t.closing with
  | false =>
    refine ⟨"chunk_".data ++ (t.digits ++ ['>']), ?_, ?_, ?_⟩
    · rw [tagText, hcl, openTagFor]
      simp
    · intro hmem
      rcases List.mem_append.mp hmem with hin | hin
      · exact absurd hin (by decide)
      · rcases List.mem_append.mp hin with hin2 | hin2
        · exact isDigitChar_ne_lt (hds _ hin2) rfl
        · simp at hin2
    · refine List.mem_append.mpr (Or.inr ?_)
      refine List.mem_append.mpr (Or.inr ?_)
      simp
  | true =>
    refine ⟨'/' :: ("chunk_".data ++ (t.digits ++ ['>'])), ?_, ?_, ?_⟩
    · rw [tagText, hcl, closeTagFor]
      simp
    · intro hmem
      rcases List.mem_cons.mp hmem with hin | hin
      · cases hin
      · rcases List.mem_append.mp hin with hin2 | hin2
        · exact absurd hin2 (by decide)
        · rcases List.mem_append.mp hin2 with hin3 | hin3
          · exact isDigitChar_ne_lt (hds _ hin3) rfl
          · simp at hin3
    · refine List.mem_cons.mpr (Or.inr ?_)
      refine List.mem_append.mpr (Or.inr ?_)
      refine List.mem_append.mpr (Or.inr ?_)
      simp

theorem interleave_lastLt (last : List Char) (hlast : '<' ∉ last) :
    ∀ pieces : List (List Char × TagTok),
      (∀ p ∈ pieces, '<' ∉ p.1 ∧ wfTag p.2) → pieces ≠ [] →
      ∃ a t, lastLtSplit (interleave pieces last) = some (a, t) ∧ '>' ∈ t := by
  intro pieces
  induction pieces with
  | nil => intro _ h; exact absurd rfl h
  | cons p ps ih =>
    intro hp _
    obtain ⟨seg, tag⟩ := p
    have hwf := (hp (seg, tag) (by simp)).2
    obtain ⟨body, hb, hbl, hbg⟩ := tagText_decomp tag hwf
    cases hps : ps with
    | nil =>
      rw [show interleave [(seg, tag)] last = seg ++ ('<' :: (body ++ last)) from by
        rw [interleave, interleave, hb]
        simp]
      have hnl : '<' ∉ body ++ last := by
        intro hmem
        rcases List.mem_append.mp hmem with h | h
        · exact hbl h
        · exact hlast h
      exact ⟨seg, '<' :: (body ++ last),
        by simpa using lastLtSplit_append_some (lastLtSplit_lt_no_lt hnl) seg,
        List.mem_cons.mpr (Or.inr (List.mem_append.mpr (Or.inl hbg)))⟩
    | cons q qs =>
      obtain ⟨a, t, hsplit, hgt⟩ := ih (fun x hx => hp x (by simp [hx])) (by
        rw [hps]
        simp)
      rw [hps] at hsplit
      refine ⟨seg ++ tagText tag ++ a, t, ?_, hgt⟩
      rw [show interleave ((seg, tag) :: q :: qs) last
          = (seg ++ tagText tag) ++ interleave (q :: qs) last from by
        rw [interleave]]
      rw [lastLtSplit_append_some hsplit]

theorem stripTags_tag_prefix (t : TagTok) (hwf : wfTag t) (r : List Char) :
    stripTags (tagText t ++ r) = stripTags r := by
  obtain ⟨h1, h3, hds⟩ := hwf
  obtain ⟨body, hb, _, _⟩ := tagText_decomp t ⟨h1, h3, hds⟩
  have hm : matchTag (tagText t ++ r) = some r := by
    rw [tagText]
    cases t.closing with
    | false => simpa using matchTag_openTag h1 h3 hds r
    | true => simpa using matchTag_closeTag h1 h3 hds r
  rw [show tagText t ++ r = '<' :: (body ++ r) from by rw [hb]; simp]
  apply stripTags_cons_some
  rw [show ('<' : Char) :: (body ++ r) = tagText t ++ r from by rw [hb]; simp]
  exact hm

theorem stripTags_interleave (last : List Char) (hlast : '<' ∉ last) :
    ∀ pieces : List (List Char × TagTok),
      (∀ p ∈ pieces, '<' ∉ p.1 ∧ wfTag p.2) →
      stripTags (interleave pieces last) = segsOnly pieces last := by
  intro pieces
  induction pieces with
  | nil =>
    intro _
    exact stripTags_no_lt hlast
  | cons p ps ih =>
    intro hp
    obtain ⟨seg, tag⟩ := p
    have hseg := (hp (seg, tag) (by simp)).1
    have hwf := (hp (seg, tag) (by simp)).2
    rw [show interleave ((seg, tag) :: ps) last
        = seg ++ (tagText tag ++ interleave ps last) from by
      rw [interleave]
      simp]
    rw [stripTags_append_no_lt hseg, stripTags_tag_prefix tag hwf,
      ih (fun x hx => hp x (by simp [hx]))]
    rw [segsOnly]

theorem interleave_masks_id (last : List Char) (hlast : '<' ∉ last)
    (pieces : List (List Char × TagTok))
    (hp : ∀ p ∈ pieces, '<' ∉ p.1 ∧ wfTag p.2) :
    maskTrailingPartialEnds (maskTrailingPartialStarts (interleave pieces last))
      = interleave pieces last := by
  cases pieces with
  | nil =>
    rw [show interleave [] last = last from rfl, maskStarts_id_no_lt hlast,
      maskEnds_id_no_lt hlast]
  | cons p ps =>
    obtain ⟨a, t, hsplit, hgt⟩ :=
      interleave_lastLt last hlast (p :: ps) hp (by simp)
    rw [maskStarts_id_of_gt hsplit hgt, maskEnds_id_of_gt hsplit hgt]

theorem escapeChar_no_lt (c : Char) : '<' ∉ escapeChar c := by
  rw [escapeChar]
  by_cases h1 : c = '&'
  · rw [if_pos h1]; decide
  · rw [if_neg h1]
    by_cases h2 : c = '<'
    · rw [if_pos h2]; decide
    · rw [if_neg h2]
      by_cases h3 : c = '>'
      · rw [if_pos h3]; decide
      · rw [if_neg h3]
        by_cases h4 : c = '"'
        · rw [if_pos h4]; decide
        · rw [if_neg h4]
          by_cases h5 : c = Char.ofNat 39
          · rw [if_pos h5]; decide
          · rw [if_neg h5]
            intro hmem
            rcases List.mem_singleton.mp hmem with h
            exact h2 h.symm

theorem escapeHtml_no_lt (s : List Char) : '<' ∉ escapeHtml s := by
  rw [escapeHtml]
  intro hmem
  rw [List.mem_flatten] at hmem
  obtain ⟨l, hl, hmem2⟩ := hmem
  rw [List.mem_map] at hl
  obtain ⟨c, _, hc⟩ := hl
  exact escapeChar_no_lt c (hc ▸ hmem2)

theorem digitChar_ne_lt (m : Nat) : Nat.digitChar m ≠ '<' := by
  by_cases h : m < 16
  · interval_cases m <;> decide
  · rw [Nat.digitChar]
    rw [if_neg (show ¬ m = 0 from by omega),
      if_neg (show ¬ m = 1 from by omega),
      if_neg (show ¬ m = 2 from by omega),
      if_neg (show ¬ m = 3 from by omega),
      if_neg (show ¬ m = 4 from by omega),
      if_neg (show ¬ m = 5 from by omega),
      if_neg (show ¬ m = 6 from by omega),
      if_neg (show ¬ m = 7 from by omega),
      if_neg (show ¬ m = 8 from by omega),
      if_neg (show ¬ m = 9 from by omega),
      if_neg (show ¬ m = 0xa from by omega),
      if_neg (show ¬ m = 0xb from by omega),
      if_neg (show ¬ m = 0xc from by omega),
      if_neg (show ¬ m = 0xd from by omega),
      if_neg (show ¬ m = 0xe from by omega),
      if_neg (show ¬ m = 0xf from by omega)]
    decide

theorem toDigitsCore_no_lt :
    ∀ (fuel n : Nat) (acc : List Char), '<' ∉ acc →
      '<' ∉ Nat.toDigitsCore 10 fuel n acc := by
  intro fuel
  induction fuel with
  | zero =>
    intro n acc h
    simpa [Nat.toDigitsCore] using h
  | succ f ih =>
    intro n acc h
    rw [Nat.toDigitsCore]
    have hcons : '<' ∉ Nat.digitChar (n % 10) :: acc := by
      intro hmem
      rcases List.mem_cons.mp hmem with h1 | h1
      · exact digitChar_ne_lt _ h1.symm
      · exact h h1
    by_cases hz : n / 10 = 0
    · simp only [hz, if_pos rfl]
      exact hcons
    · simp only [if_neg hz]
      exact ih (n / 10) (Nat.digitChar (n % 10) :: acc) hcons

theorem natRepr_no_lt (n : Nat) : '<' ∉ (toString n).data := by
  show '<' ∉ (Nat.repr n).data
  rw [Nat.repr]
  exact toDigitsCore_no_lt (n + 1) n [] (by simp)

theorem matchOpen_lt_cons_none {rest : List Char}
    (h : "chunk_".data.isPrefixOf rest = false) : matchOpen ('<' :: rest) = none := by
  rw [matchOpen, h]
  simp

theorem matchCloseTag_lt_slash_none {rest : List Char}
    (h : "chunk_".data.isPrefixOf rest = false) :
    matchCloseTag ('<' :: '/' :: rest) = none := by
  rw [show matchCloseTag ('<' :: '/' :: rest) = matchTagFrom rest from rfl,
    matchTagFrom, h]
  simp

theorem isPrefixOf_chunk_s (x : List Char) :
    "chunk_".data.isPrefixOf ('s' :: x) = false := by
  simp [List.isPrefixOf]

theorem isPrefixOf_chunk_slash (x : List Char) :
    "chunk_".data.isPrefixOf ('/' :: x) = false := by
  simp [List.isPrefixOf]

theorem matchCloseTag_lt_s_none (x : List Char) :
    matchCloseTag ('<' :: 's' :: x) = none :=
  matchCloseTag_cons_cons_none (by decide)

theorem not_mem_append2 {a : Char} {l1 l2 : List Char}
    (h1 : a ∉ l1) (h2 : a ∉ l2) : a ∉ l1 ++ l2 := by
  intro h
  rcases List.mem_append.mp h with h | h
  · exact h1 h
  · exact h2 h

/-- The stray-tag passes leave the generated placeholder span markup intact:
neither `<span ...>` nor `</span>` ever matches a chunk-tag pattern. -/
theorem strays_skip_span (idx : Nat) (esc post : List Char)
    (hesc : '<' ∉ esc) (hpost : '<' ∉ post) :
    removeStrayClose (removeStrayOpen ('<' :: ('s' :: ("pan data-chunk-id=\"".data
        ++ ((toString idx).data ++ ("\">".data
        ++ (esc ++ ('<' :: ('/' :: ('s' :: ('p' :: ('a' :: ('n' :: ('>' :: post))))))))))))))
      = '<' :: ('s' :: ("pan data-chunk-id=\"".data ++ ((toString idx).data
        ++ ("\">".data ++ (esc ++ ('<' :: ('/' :: ('s' :: ('p' :: ('a' :: ('n' :: ('>' :: post))))))))))))
      := by
  rw [removeStrayOpen_cons_none (matchOpen_lt_cons_none (isPrefixOf_chunk_s _))]
  rw [removeStrayOpen_cons_none (matchOpen_none_of_head (by decide))]
  rw [removeStrayOpen_append_no_lt (by decide)]
  rw [removeStrayOpen_append_no_lt (natRepr_no_lt idx)]
  rw [removeStrayOpen_append_no_lt (by decide)]
  rw [removeStrayOpen_append_no_lt hesc]
  rw [removeStrayOpen_cons_none (matchOpen_lt_cons_none (isPrefixOf_chunk_slash _))]
  rw [removeStrayOpen_cons_none (matchOpen_none_of_head (by decide))]
  rw [removeStrayOpen_cons_none (matchOpen_none_of_head (by decide))]
  rw [removeStrayOpen_cons_none (matchOpen_none_of_head (by decide))]
  rw [removeStrayOpen_cons_none (matchOpen_none_of_head (by decide))]
  rw [removeStrayOpen_cons_none (matchOpen_none_of_head (by decide))]
  rw [removeStrayOpen_cons_none (matchOpen_none_of_head (by decide))]
  rw [removeStrayOpen_no_lt hpost]
  rw [removeStrayClose_cons_none (matchCloseTag_lt_s_none _)]
  rw [removeStrayClose_cons_none (matchCloseTag_none_of_head (by decide))]
  rw [removeStrayClose_append_no_lt (by decide)]
  rw [removeStrayClose_append_no_lt (natRepr_no_lt idx)]
  rw [removeStrayClose_append_no_lt (by decide)]
  rw [removeStrayClose_append_no_lt hesc]
  rw [removeStrayClose_cons_none (matchCloseTag_lt_slash_none (isPrefixOf_chunk_s _))]
  rw [removeStrayClose_cons_none (matchCloseTag_none_of_head (by decide))]
  rw [removeStrayClose_cons_none (matchCloseTag_none_of_head (by decide))]
  rw [removeStrayClose_cons_none (matchCloseTag_none_of_head (by decide))]
  rw [removeStrayClose_cons_none (matchCloseTag_none_of_head (by decide))]
  rw [removeStrayClose_cons_none (matchCloseTag_none_of_head (by decide))]
  rw [removeStrayClose_cons_none (matchCloseTag_none_of_head (by decide))]
  rw [removeStrayClose_no_lt hpost]

theorem replacePairs_single (n : Nat) (pre inner post ds : List Char)
    (hpre : '<' ∉ pre) (hinner : '<' ∉ inner) (hpost : '<' ∉ post)
    (h1 : 1 ≤ ds.length) (h3 : ds.length ≤ 3) (hds : ∀ c ∈ ds, isDigitChar c) :
    replacePairs n (pre ++ (openTagFor ds ++ inner ++ closeTagFor ds ++ post))
      = pre ++ (pairReplacement n ds inner ++ post) := by
  rw [replacePairs_append_no_lt n hpre]
  have hm := matchPair_exact h1 h3 hds hinner post
  have hshape : openTagFor ds ++ inner ++ closeTagFor ds ++ post
      = '<' :: (("chunk_".data ++ (ds ++ ['>'])) ++ inner ++ closeTagFor ds ++ post) := by
    rw [openTagFor]
    simp
  rw [hshape] at hm ⊢
  rw [replacePairs_cons_some hm, replacePairs_no_lt n hpost]

theorem masks_single (pre inner post ds : List Char)
    (hpre : '<' ∉ pre) (hinner : '<' ∉ inner) (hpost : '<' ∉ post)
    (hds : ∀ c ∈ ds, isDigitChar c) :
    maskTrailingPartialEnds (maskTrailingPartialStarts
        (pre ++ (openTagFor ds ++ inner ++ closeTagFor ds ++ post)))
      = pre ++ (openTagFor ds ++ inner ++ closeTagFor ds ++ post) := by
  have hct : '<' ∉ ('/' :: ("chunk_".data ++ (ds ++ ['>']))) ++ post := by
    refine not_mem_append2 ?_ hpost
    intro hmem
    rcases List.mem_cons.mp hmem with h | h
    · cases h
    · rcases List.mem_append.mp h with h2 | h2
      · exact absurd h2 (by decide)
      · rcases List.mem_append.mp h2 with h3 | h3
        · exact isDigitChar_ne_lt (hds _ h3) rfl
        · simp at h3
  have hshape : pre ++ (openTagFor ds ++ inner ++ closeTagFor ds ++ post)
      = (pre ++ (openTagFor ds ++ inner))
        ++ ('<' :: (('/' :: ("chunk_".data ++ (ds ++ ['>']))) ++ post)) := by
    rw [closeTagFor]
    simp
  have hsplit := lastLtSplit_append_some (lastLtSplit_lt_no_lt hct)
    (pre ++ (openTagFor ds ++ inner))
  rw [← hshape] at hsplit
  have hgt : '>' ∈ '<' :: (('/' :: ("chunk_".data ++ (ds ++ ['>']))) ++ post) := by
    refine List.mem_cons.mpr (Or.inr ?_)
    refine List.mem_append.mpr (Or.inl ?_)
    refine List.mem_cons.mpr (Or.inr ?_)
    refine List.mem_append.mpr (Or.inr ?_)
    simp
  rw [maskStarts_id_of_gt hsplit hgt, maskEnds_id_of_gt hsplit hgt]

/-- `toPlaceholderSpans` on a text with exactly one complete matched pair
(and no other `<` anywhere), with a non-empty chunk list. -/
theorem toPlaceholder_pair (chunks : List String) (pre inner post ds : List Char)
    (hne : chunks ≠ []) (hpre : '<' ∉ pre) (hinner : '<' ∉ inner)
    (hpost : '<' ∉ post) (h1 : 1 ≤ ds.length) (h3 : ds.length ≤ 3)
    (hds : ∀ c ∈ ds, isDigitChar c) :
    toPlaceholderSpans
        (String.mk (pre ++ (openTagFor ds ++ inner ++ closeTagFor ds ++ post)))
        (some chunks)
      = String.mk (removeStrayClose (removeStrayOpen
          (pre ++ (pairReplacement chunks.length ds inner ++ post)))) := by
  show (if chunks.length = 0 then _ else _) = _
  rw [if_neg (by simpa using hne)]
  rw [show (String.mk (pre ++ (openTagFor ds ++ inner ++ closeTagFor ds ++ post))).data
      = pre ++ (openTagFor ds ++ inner ++ closeTagFor ds ++ post) from rfl]
  rw [masks_single pre inner post ds hpre hinner hpost hds,
    replacePairs_single chunks.length pre inner post ds hpre hinner hpost h1 h3 hds]

theorem toPlaceholder_pair_out_of_range (chunks : List String)
    (pre inner post ds : List Char)
    (hne : chunks ≠ []) (hpre : '<' ∉ pre) (hinner : '<' ∉ inner)
    (hpost : '<' ∉ post) (h1 : 1 ≤ ds.length) (h3 : ds.length ≤ 3)
    (hds : ∀ c ∈ ds, isDigitChar c)
    (hrange : digitsToNat ds < 1 ∨ digitsToNat ds > chunks.length) :
    toPlaceholderSpans
        (String.mk (pre ++ (openTagFor ds ++ inner ++ closeTagFor ds ++ post)))
        (some chunks)
      = String.mk (pre ++ (escapeHtml inner ++ post)) := by
  rw [toPlaceholder_pair chunks pre inner post ds hne hpre hinner hpost h1 h3 hds]
  rw [show pairReplacement chunks.length ds inner = escapeHtml inner from by
    rw [pairReplacement]
    simp only [if_pos hrange]]
  have hall : '<' ∉ pre ++ (escapeHtml inner ++ post) :=
    not_mem_append2 hpre (not_mem_append2 (escapeHtml_no_lt inner) hpost)
  rw [removeStrayOpen_no_lt hall, removeStrayClose_no_lt hall]

theorem toPlaceholder_pair_in_range (chunks : List String)
    (pre inner post ds : List Char)
    (hne : chunks ≠ []) (hpre : '<' ∉ pre) (hinner : '<' ∉ inner)
    (hpost : '<' ∉ post) (h1 : 1 ≤ ds.length) (h3 : ds.length ≤ 3)
    (hds : ∀ c ∈ ds, isDigitChar c)
    (hlo : 1 ≤ digitsToNat ds) (hhi : digitsToNat ds ≤ chunks.length) :
    toPlaceholderSpans
        (String.mk (pre ++ (openTagFor ds ++ inner ++ closeTagFor ds ++ post)))
        (some chunks)
      = String.mk (pre ++ ('<' :: ('s' :: ("pan data-chunk-id=\"".data
          ++ ((toString (digitsToNat ds)).data ++ ("\">".data
          ++ (escapeHtml inner
             ++ ('<' :: ('/' :: ('s' :: ('p' :: ('a' :: ('n' :: ('>' :: post)))))))))))))) := by
  rw [toPlaceholder_pair chunks pre inner post ds hne hpre hinner hpost h1 h3 hds]
  have hrep : pairReplacement chunks.length ds inner ++ post
      = '<' :: ('s' :: ("pan data-chunk-id=\"".data
          ++ ((toString (digitsToNat ds)).data ++ ("\">".data
          ++ (escapeHtml inner
             ++ ('<' :: ('/' :: ('s' :: ('p' :: ('a' :: ('n' :: ('>' :: post)))))))))))) := by
    rw [pairReplacement]
    rw [if_neg (by omega)]
    simp
  rw [hrep, removeStrayOpen_append_no_lt hpre, removeStrayClose_append_no_lt hpre,
    strays_skip_span (digitsToNat ds) (escapeHtml inner) post
      (escapeHtml_no_lt inner) hpost]

/-- Both no-chunk branches of `toPlaceholderSpans` on a text assembled from
`<`-free segments separated by complete tags: every tag is removed and all
segment text is preserved in order. -/
theorem toPlaceholder_strip_general (pieces : List (List Char × TagTok))
    (last : List Char) (hlast : '<' ∉ last)
    (hp : ∀ p ∈ pieces, '<' ∉ p.1 ∧ wfTag p.2) :
    toPlaceholderSpans (String.mk (interleave pieces last)) none
        = String.mk (segsOnly pieces last)
    ∧ toPlaceholderSpans (String.mk (interleave pieces last)) (some [])
        = String.mk (segsOnly pieces last) := by
  constructor
  · show String.mk (stripTags (maskTrailingPartialEnds (maskTrailingPartialStarts
      (String.mk (interleave pieces last)).data))) = String.mk (segsOnly pieces last)
    rw [show (String.mk (interleave pieces last)).data = interleave pieces last from rfl,
      interleave_masks_id last hlast pieces hp,
      stripTags_interleave last hlast pieces hp]
  · show String.mk (stripTags (maskTrailingPartialEnds (maskTrailingPartialStarts
      (String.mk (interleave pieces last)).data))) = String.mk (segsOnly pieces last)
    rw [show (String.mk (interleave pieces last)).data = interleave pieces last from rfl,
      interleave_masks_id last hlast pieces hp,
      stripTags_interleave last hlast pieces hp]

theorem atp_pieces_wf :
    ∀ p ∈ [(([] : List Char), (⟨false, ['1']⟩ : TagTok)),
          ("ATP".data, (⟨true, ['1']⟩ : TagTok))],
      '<' ∉ p.1 ∧ wfTag p.2 := by
  intro p hp
  rcases List.mem_cons.mp hp with h | h
  · subst h
    exact ⟨by decide, by decide, by decide, by decide⟩
  · rcases List.mem_cons.mp h with h2 | h2
    · subst h2
      exact ⟨by decide, by decide, by decide, by decide⟩
    · cases h2

/-- C6: `toPlaceholderSpans` turns `<chunk_1>ATP</chunk_1>` with a one-chunk
array into the placeholder span `<span data-chunk-id="1">ATP</span>`; and
with the chunk array undefined or empty, every complete citation tag is
removed while all inner text is preserved unchanged — in particular that
input yields plain `ATP`. -/
theorem toPlaceholder_basic_and_strip :
    toPlaceholderSpans "<chunk_1>ATP</chunk_1>" (some ["adenosine triphosphate"])
      = "<span data-chunk-id=\"1\">ATP</span>"
    ∧ toPlaceholderSpans "<chunk_1>ATP</chunk_1>" none = "ATP"
    ∧ toPlaceholderSpans "<chunk_1>ATP</chunk_1>" (some []) = "ATP"
    ∧ (∀ (pieces : List (List Char × TagTok)) (last : List Char),
        '<' ∉ last → (∀ p ∈ pieces, '<' ∉ p.1 ∧ wfTag p.2) →
        toPlaceholderSpans (String.mk (interleave pieces last)) none
            = String.mk (segsOnly pieces last)
        ∧ toPlaceholderSpans (String.mk (interleave pieces last)) (some [])
            = String.mk (segsOnly pieces last)) := by
  refine ⟨?_, ?_, ?_, fun pieces last h1 h2 => toPlaceholder_strip_general pieces last h1 h2⟩
  · rw [show ("<chunk_1>ATP</chunk_1>" : String)
        = String.mk ([] ++ (openTagFor ['1'] ++ "ATP".data ++ closeTagFor ['1'] ++ []))
        from by decide]
    rw [toPlaceholder_pair_in_range ["adenosine triphosphate"] [] "ATP".data [] ['1']
      (by decide) (by decide) (by decide) (by decide) (by decide) (by decide)
      (by decide) (by decide) (by decide)]
    decide
  · rw [show ("<chunk_1>ATP</chunk_1>" : String)
        = String.mk (interleave [(([] : List Char), ⟨false, ['1']⟩),
            ("ATP".data, ⟨true, ['1']⟩)] []) from by decide]
    rw [(toPlaceholder_strip_general _ _ (by decide) atp_pieces_wf).1]
    decide
  · rw [show ("<chunk_1>ATP</chunk_1>" : String)
        = String.mk (interleave [(([] : List Char), ⟨false, ['1']⟩),
            ("ATP".data, ⟨true, ['1']⟩)] []) from by decide]
    rw [(toPlaceholder_strip_general _ _ (by decide) atp_pieces_wf).2]
    decide

/-- Concrete instantiation of `toPlaceholder_basic_and_strip`: two complete
tags interleaved with plain segments, chunks not yet available. -/
theorem toPlaceholder_basic_and_strip_witness :
    toPlaceholderSpans (String.mk (interleave
        [("energy: ".data, ⟨false, ['2']⟩), ("ATP".data, ⟨true, ['2']⟩)]
        " is made".data)) none
      = String.mk (segsOnly
        [("energy: ".data, ⟨false, ['2']⟩), ("ATP".data, ⟨true, ['2']⟩)]
        " is made".data) := by
  have h := (toPlaceholder_basic_and_strip.2.2.2
    [("energy: ".data, ⟨false, ['2']⟩), ("ATP".data, ⟨true, ['2']⟩)]
    " is made".data (by decide) (by
      intro p hp
      rcases List.mem_cons.mp hp with h | h
      · subst h
        exact ⟨by decide, by decide, by decide, by decide⟩
      · rcases List.mem_cons.mp h with h2 | h2
        · subst h2
          exact ⟨by decide, by decide, by decide, by decide⟩
        · cases h2)).1
  exact h

/-- C7: with a non-empty chunk array, a complete matched tag pair whose
citation index `digitsToNat ds` lies outside `1..chunks.length` is rendered
as its inner text, escaped, with both tags stripped and no span emitted; in
particular `<chunk_9>X</chunk_9>` with one chunk yields plain `X`. -/
theorem toPlaceholder_out_of_range_plain :
    (∀ (chunks : List String) (pre inner post ds : List Char),
      chunks ≠ [] → '<' ∉ pre → '<' ∉ inner → '<' ∉ post →
      1 ≤ ds.length → ds.length ≤ 3 → (∀ c ∈ ds, isDigitChar c) →
      (digitsToNat ds < 1 ∨ digitsToNat ds > chunks.length) →
      toPlaceholderSpans
          (String.mk (pre ++ (openTagFor ds ++ inner ++ closeTagFor ds ++ post)))
          (some chunks)
        = String.mk (pre ++ (escapeHtml inner ++ post)))
    ∧ toPlaceholderSpans "<chunk_9>X</chunk_9>" (some ["only one chunk"]) = "X" := by
  refine ⟨fun chunks pre inner post ds h1 h2 h3 h4 h5 h6 h7 h8 =>
    toPlaceholder_pair_out_of_range chunks pre inner post ds h1 h2 h3 h4 h5 h6 h7 h8, ?_⟩
  rw [show ("<chunk_9>X</chunk_9>" : String)
      = String.mk ([] ++ (openTagFor ['9'] ++ "X".data ++ closeTagFor ['9'] ++ []))
      from by decide]
  rw [toPlaceholder_pair_out_of_range ["only one chunk"] [] "X".data [] ['9']
    (by decide) (by decide) (by decide) (by decide) (by decide) (by decide)
    (by decide) (by decide)]
  decide

/-- Concrete instantiation of `toPlaceholder_out_of_range_plain`: index 7
with a two-chunk array renders the inner text escaped, tags stripped. -/
theorem toPlaceholder_out_of_range_plain_witness :
    toPlaceholderSpans
        (String.mk ("cite ".data
          ++ (openTagFor ['7'] ++ "DNA".data ++ closeTagFor ['7'] ++ " here".data)))
        (some ["a", "b"])
      = String.mk ("cite ".data ++ (escapeHtml "DNA".data ++ " here".data)) :=
  toPlaceholder_out_of_range_plain.1 ["a", "b"] "cite ".data "DNA".data
    " here".data ['7'] (by decide) (by decide) (by decide) (by decide)
    (by decide) (by decide) (by decide) (by decide)

/-- The `indexOf` scan of `patchFence`, one character at a time: `skip` is the
number of characters of the previous match still to be stepped over
(`i = pos + fence.length`). -/
def countOccAux (fence : List Char) : List Char → Nat → Nat
  | [], _ => 0
  | c :: cs, skip =>
    if 0 < skip then countOccAux fence cs (skip - 1)
    else if fence.isPrefixOf (c :: cs) then 1 + countOccAux fence cs (fence.length - 1)
    else countOccAux fence cs 0

/-- Number of non-overlapping occurrences of `fence`, counted left to right
resuming after each match: the `while` loop of `patchFence`. -/
def countOcc (fence out : List Char) : Nat :=
  countOccAux fence out 0

/-- `patchFence` of `normalizeStreamingMarkdown`: append a newline and one
closing fence when the occurrence count is odd. -/
def patchFence (fence out : List Char) : List Char :=
  if countOcc fence out % 2 = 1 then out ++ ('\n' :: fence) else out

/-- `normalizeStreamingMarkdown`: patch the backtick family first, then the
tilde family on the result. -/
def normalizeStreamingMarkdown (text : String) : String :=
  String.mk (patchFence "~~~".data (patchFence "```".data text.data))

/-- A fence containing no newline never matches across a `'\n'` boundary, so
the scan of `a ++ '\n' :: b` splits: provided the pending skip does not
reach past `a`, the count is the sum of the two independent scans. -/
theorem countOccAux_append_nl {f : List Char} (hnl : '\n' ∉ f) (b : List Char) :
    ∀ (a : List Char) (skip : Nat), skip ≤ a.length →
      countOccAux f (a ++ '\n' :: b) skip
        = countOccAux f a skip + countOccAux f ('\n' :: b) 0 := by
  intro a
  induction a with
  | nil =>
    intro skip hsk
    have h0 : skip = 0 := Nat.le_zero.mp hsk
    subst h0
    simp [countOccAux]
  | cons c cs ih =>
    intro skip hsk
    by_cases hskip : 0 < skip
    · rw [List.cons_append]
      rw [show countOccAux f (c :: (cs ++ '\n' :: b)) skip
          = countOccAux f (cs ++ '\n' :: b) (skip - 1) from by
        rw [countOccAux]
        rw [if_pos hskip]]
      rw [show countOccAux f (c :: cs) skip = countOccAux f cs (skip - 1) from by
        rw [countOccAux]
        rw [if_pos hskip]]
      exact ih (skip - 1) (by simp at hsk; omega)
    · have hsk0 : skip = 0 := by omega
      subst hsk0
      rw [List.cons_append]
      by_cases hp : f.isPrefixOf (c :: (cs ++ '\n' :: b)) = true
      · have hpre : f <+: (c :: cs) ++ '\n' :: b := by
          rw [← List.isPrefixOf_iff_prefix]
          rw [List.cons_append]
          exact hp
        have hlen : f.length ≤ (c :: cs).length := by
          by_contra hgt
          push_neg at hgt
          have hidx := hpre.getElem (show (c :: cs).length < f.length from hgt)
          have hbnd : (c :: cs).length < ((c :: cs) ++ '\n' :: b).length := by
            simp [List.length_append]
          have hval : ((c :: cs) ++ '\n' :: b)[(c :: cs).length] = '\n' := by
            rw [List.getElem_append_right (Nat.le_refl _)]
            simp
          rw [hval] at hidx
          exact hnl (hidx ▸ List.getElem_mem _)
        have hpc : f.isPrefixOf (c :: cs) = true := by
          rw [List.isPrefixOf_iff_prefix]
          rw [List.prefix_iff_eq_take]
          have := List.prefix_iff_eq_take.mp hpre
          rwa [List.take_append_eq_append_take, Nat.sub_eq_zero_of_le hlen,
            List.take_zero, List.append_nil] at this
        rw [show countOccAux f (c :: (cs ++ '\n' :: b)) 0
            = 1 + countOccAux f (cs ++ '\n' :: b) (f.length - 1) from by
          rw [countOccAux]
          rw [if_neg (by omega), if_pos hp]]
        rw [show countOccAux f (c :: cs) 0
            = 1 + countOccAux f cs (f.length - 1) from by
          rw [countOccAux]
          rw [if_neg (by omega), if_pos hpc]]
        rw [ih (f.length - 1) (by simp at hlen; omega)]
        omega
      · have hpc : ¬ f.isPrefixOf (c :: cs) = true := by
          intro hcc
          apply hp
          rw [List.isPrefixOf_iff_prefix] at hcc ⊢
          exact hcc.trans (List.prefix_append (c :: cs) ('\n' :: b))
        rw [show countOccAux f (c :: (cs ++ '\n' :: b)) 0
            = countOccAux f (cs ++ '\n' :: b) 0 from by
          rw [countOccAux]
          rw [if_neg (by omega), if_neg hp]]
        rw [show countOccAux f (c :: cs) 0 = countOccAux f cs 0 from by
          rw [countOccAux]
          rw [if_neg (by omega), if_neg hpc]]
        exact ih 0 (Nat.zero_le _)

theorem countOcc_append_nl {f : List Char} (hnl : '\n' ∉ f) (a b : List Char) :
    countOcc f (a ++ '\n' :: b) = countOcc f a + countOccAux f ('\n' :: b) 0 :=
  countOccAux_append_nl hnl b a 0 (Nat.zero_le _)

/-- C8: `normalizeStreamingMarkdown` appends one synthetic closing delimiter
for a fence family exactly when that family's non-overlapping occurrence
count in the input is odd, leaving the input otherwise unchanged; both
families' counts in the output are even; and the unterminated opening fence
example is closed. -/
theorem normalizeStreamingMarkdown_balances :
    (∀ s : String,
        normalizeStreamingMarkdown s
          = String.mk ((s.data
              ++ (if countOcc "```".data s.data % 2 = 1
                  then '\n' :: "```".data else []))
              ++ (if countOcc "~~~".data s.data % 2 = 1
                  then '\n' :: "~~~".data else []))
        ∧ countOcc "```".data (normalizeStreamingMarkdown s).data % 2 = 0
        ∧ countOcc "~~~".data (normalizeStreamingMarkdown s).data % 2 = 0)
    ∧ normalizeStreamingMarkdown "```js\nconst x = 1;"
        = "```js\nconst x = 1;\n```" := by
  constructor
  · intro s
    have e1 : countOccAux "```".data ('\n' :: "```".data) 0 = 1 := by decide
    have e2 : countOccAux "~~~".data ('\n' :: "```".data) 0 = 0 := by decide
    have e3 : countOccAux "~~~".data ('\n' :: "~~~".data) 0 = 1 := by decide
    have e4 : countOccAux "```".data ('\n' :: "~~~".data) 0 = 0 := by decide
    have hbt : ('\n' : Char) ∉ "```".data := by decide
    have htl : ('\n' : Char) ∉ "~~~".data := by decide
    simp only [normalizeStreamingMarkdown]
    by_cases hB : countOcc "```".data s.data % 2 = 1
    · rw [show patchFence "```".data s.data = s.data ++ '\n' :: "```".data from by
        simp only [patchFence]
        rw [if_pos hB]]
      have hT2 : countOcc "~~~".data (s.data ++ '\n' :: "```".data)
          = countOcc "~~~".data s.data := by
        rw [countOcc_append_nl htl, e2, Nat.add_zero]
      by_cases hT : countOcc "~~~".data s.data % 2 = 1
      · rw [show patchFence "~~~".data (s.data ++ '\n' :: "```".data)
            = (s.data ++ '\n' :: "```".data) ++ '\n' :: "~~~".data from by
          simp only [patchFence, hT2]
          rw [if_pos hT]]
        refine ⟨?_, ?_, ?_⟩
        · rw [if_pos hB, if_pos hT]
        · show countOcc "```".data
            ((s.data ++ '\n' :: "```".data) ++ '\n' :: "~~~".data) % 2 = 0
          rw [countOcc_append_nl hbt, e4, countOcc_append_nl hbt, e1]
          omega
        · show countOcc "~~~".data
            ((s.data ++ '\n' :: "```".data) ++ '\n' :: "~~~".data) % 2 = 0
          rw [countOcc_append_nl htl, e3, hT2]
          omega
      · rw [show patchFence "~~~".data (s.data ++ '\n' :: "```".data)
            = s.data ++ '\n' :: "```".data from by
          simp only [patchFence, hT2]
          rw [if_neg hT]]
        refine ⟨?_, ?_, ?_⟩
        · rw [if_pos hB, if_neg hT, List.append_nil]
        · show countOcc "```".data (s.data ++ '\n' :: "```".data) % 2 = 0
          rw [countOcc_append_nl hbt, e1]
          omega
        · show countOcc "~~~".data (s.data ++ '\n' :: "```".data) % 2 = 0
          rw [hT2]
          omega
    · rw [show patchFence "```".data s.data = s.data from by
        simp only [patchFence]
        rw [if_neg hB]]
      by_cases hT : countOcc "~~~".data s.data % 2 = 1
      · rw [show patchFence "~~~".data s.data = s.data ++ '\n' :: "~~~".data from by
          simp only [patchFence]
          rw [if_pos hT]]
        refine ⟨?_, ?_, ?_⟩
        · rw [if_neg hB, if_pos hT, List.append_nil]
        · show countOcc "```".data (s.data ++ '\n' :: "~~~".data) % 2 = 0
          rw [countOcc_append_nl hbt, e4]
          omega
        · show countOcc "~~~".data (s.data ++ '\n' :: "~~~".data) % 2 = 0
          rw [countOcc_append_nl htl, e3]
          omega
      · rw [show patchFence "~~~".data s.data = s.data from by
          simp only [patchFence]
          rw [if_neg hT]]
        refine ⟨?_, ?_, ?_⟩
        · rw [if_neg hB, if_neg hT, List.append_nil, List.append_nil]
        · show countOcc "```".data s.data % 2 = 0
          omega
        · show countOcc "~~~".data s.data % 2 = 0
          omega
  · decide


/-- Outcome of the `fetch` in `searchRag`: the promise rejects, or resolves
with an `ok` flag and a body (`none` when `response.json()` itself rejects). -/
inductive FetchOutcome where
  | reject
  | resp (ok : Bool) (body : Option Json)

/-- The characters removed by `String.prototype.trim`. -/
def isJsWs (c : Char) : Bool :=
  c == ' ' || c == '\t' || c == '\n' || c == '\r'
    || c == Char.ofNat 11 || c == Char.ofNat 12
    || c == Char.ofNat 160 || c == Char.ofNat 65279

/-- `t.trim()`. -/
def jsTrim (l : List Char) : List Char :=
  ((l.dropWhile isJsWs).reverse.dropWhile isJsWs).reverse

/-- The optional member access `results[i]?.text`. -/
def elemText (r : Json) : Option Json :=
  jget r "text"

/-- The `while` loop of `searchRag`: walk `results` in order, pushing every
`text` field that is a string whose trimmed form is non-empty. -/
def collectTexts : List Json → List String
  | [] => []
  | r :: rs =>
    match elemText r with
    | some (Json.str t) =>
      if 0 < (jsTrim t.data).length then t :: collectTexts rs
      else collectTexts rs
    | some _ => collectTexts rs
    | none => collectTexts rs

/-- `searchRag` over the outcome of its `fetch`: every failure path returns
`[]`, a successful response is reduced to its `results` texts. -/
def searchRag (outcome : FetchOutcome) : List String :=
  match outcome with
  | .reject => []
  | .resp ok body =>
    if ok then
      match body with
      | none => []
      | some json =>
        match jget json "results" with
        | some (Json.arr results) => collectTexts results
        | _ => []
    else []

/-- The selection the `while` loop applies to one element of `results`:
its `text` field when that is a string whose trimmed form is non-empty. -/
def keepText (r : Json) : Option String :=
  match elemText r with
  | some (Json.str t) => if 0 < (jsTrim t.data).length then some t else none
  | _ => none

/-- C10: `searchRag` never throws and always degrades to a list: a rejected
request, a non-ok response, an unparseable body, and a body without a
`results` array all yield `[]`; otherwise it returns exactly the `text`
fields of the results that are strings with non-whitespace content, in
response order. -/
theorem searchRag_never_throws :
    searchRag .reject = []
    ∧ (∀ body, searchRag (.resp false body) = [])
    ∧ searchRag (.resp true none) = []
    ∧ (∀ json, (∀ results, jget json "results" ≠ some (Json.arr results)) →
        searchRag (.resp true (some json)) = [])
    ∧ (∀ results,
        searchRag (.resp true (some (Json.obj [("results", Json.arr results)])))
          = results.filterMap keepText) := by
  refine ⟨rfl, fun body => rfl, rfl, ?_, ?_⟩
  · intro json h
    show (match jget json "results" with
      | some (Json.arr results) => collectTexts results
      | _ => []) = []
    cases hj : jget json "results" with
    | none => rfl
    | some v =>
      cases v with
      | arr elems => exact absurd hj (h elems)
      | null => rfl
      | bool b => rfl
      | num raw => rfl
      | str t => rfl
      | obj fs => rfl
  · intro results
    show collectTexts results = _
    induction results with
    | nil => rfl
    | cons r rs ih =>
      rw [List.filterMap_cons]
      cases he : elemText r with
      | none =>
        rw [show keepText r = none from by
          simp only [keepText]
          rw [he]]
        rw [show collectTexts (r :: rs) = collectTexts rs from by
          rw [collectTexts]
          rw [he]]
        show collectTexts rs = List.filterMap keepText rs
        exact ih
      | some v =>
        cases v with
        | str t =>
          by_cases ht : 0 < (jsTrim t.data).length
          · rw [show keepText r = some t from by
              simp only [keepText]
              rw [he]
              show (if 0 < (jsTrim t.data).length then some t else none) = some t
              rw [if_pos ht]]
            rw [show collectTexts (r :: rs) = t :: collectTexts rs from by
              rw [collectTexts]
              rw [he]
              show (if 0 < (jsTrim t.data).length then t :: collectTexts rs
                  else collectTexts rs) = t :: collectTexts rs
              rw [if_pos ht]]
            show t :: collectTexts rs = t :: List.filterMap keepText rs
            rw [ih]
          · rw [show keepText r = none from by
              simp only [keepText]
              rw [he]
              show (if 0 < (jsTrim t.data).length then some t else none) = none
              rw [if_neg ht]]
            rw [show collectTexts (r :: rs) = collectTexts rs from by
              rw [collectTexts]
              rw [he]
              show (if 0 < (jsTrim t.data).length then t :: collectTexts rs
                  else collectTexts rs) = collectTexts rs
              rw [if_neg ht]]
            show collectTexts rs = List.filterMap keepText rs
            exact ih
        | null =>
          rw [show keepText r = none from by
            simp only [keepText]
            rw [he]]
          rw [show collectTexts (r :: rs) = collectTexts rs from by
            rw [collectTexts]
            rw [he]]
          show collectTexts rs = List.filterMap keepText rs
          exact ih
        | bool b =>
          rw [show keepText r = none from by
            simp only [keepText]
            rw [he]]
          rw [show collectTexts (r :: rs) = collectTexts rs from by
            rw [collectTexts]
            rw [he]]
          show collectTexts rs = List.filterMap keepText rs
          exact ih
        | num raw =>
          rw [show keepText r = none from by
            simp only [keepText]
            rw [he]]
          rw [show collectTexts (r :: rs) = collectTexts rs from by
            rw [collectTexts]
            rw [he]]
          show collectTexts rs = List.filterMap keepText rs
          exact ih
        | arr es =>
          rw [show keepText r = none from by
            simp only [keepText]
            rw [he]]
          rw [show collectTexts (r :: rs) = collectTexts rs from by
            rw [collectTexts]
            rw [he]]
          show collectTexts rs = List.filterMap keepText rs
          exact ih
        | obj fs =>
          rw [show keepText r = none from by
            simp only [keepText]
            rw [he]]
          rw [show collectTexts (r :: rs) = collectTexts rs from by
            rw [collectTexts]
            rw [he]]
          show collectTexts rs = List.filterMap keepText rs
          exact ih

/-- Concrete instantiation of `searchRag_never_throws`: a response whose body
is the JSON number 5 (no `results` array) yields the empty chunk list. -/
theorem searchRag_never_throws_witness :
    searchRag (.resp true (some (Json.num "5"))) = [] :=
  searchRag_never_throws.2.2.2.1 (Json.num "5") (by
    intro results h
    rw [show jget (Json.num "5") "results" = none from rfl] at h
    exact Option.noConfusion h)

end StudyBuddy
